import Mathlib

/-!
# Local filesystem sync endpoint (common/sync/endpoints/filesystem, common/sync/model)

A shallow embedding of the path normaliser, the folder identity store, the node
loader, the walker, the mutation API of `FSClient`, and of the retry helpers.

Go strings that are taken apart character by character (paths) are `List Char`;
strings that are only stored and compared (uuids, file contents, hashes) are `String`.
-/

set_option autoImplicit false

namespace Cells

/-! ## Strings and paths -/

/-- The values of `runtime.GOOS` the code distinguishes. -/
inductive Goos where
  | darwin
  | windows
  | other
  deriving DecidableEq, Repr

/-- The host the endpoint runs on: `runtime.GOOS` and the two Unicode normalisation
forms of `golang.org/x/text/unicode/norm`, a library outside the repository, taken
as parameters. -/
structure Host where
  goos : Goos
  NFC : List Char → List Char
  NFD : List Char → List Char

/-- Go `os.PathSeparator`. -/
def PathSeparator : Goos → Char
  | .windows => '\\'
  | _ => '/'

/-- Modelled from the spec: `model.InternalPathSeparator` is declared outside the sources at
hand; the engine form is forward-slash separated. -/
def InternalPathSeparator : List Char := ['/']

/-- Go `strings.TrimLeft(s, cutset)`: drop the leading characters contained in the cutset. -/
def TrimLeft (s cutset : List Char) : List Char :=
  s.dropWhile (fun c => cutset.contains c)

/-- Worker of `Replace`: `skip` counts the characters of a match still to be dropped. -/
def replaceAux (old new : List Char) : List Char → Nat → List Char
  | [], _ => []
  | _ :: cs, skip + 1 => replaceAux old new cs skip
  | c :: cs, 0 =>
    if old.isPrefixOf (c :: cs) then new ++ replaceAux old new cs (old.length - 1)
    else c :: replaceAux old new cs 0

/-- Go `strings.Replace(s, old, new, -1)` for a non-empty `old`: every non-overlapping
occurrence, from the left. -/
def Replace (s old new : List Char) : List Char :=
  replaceAux old new s 0

/-- Go `FSClient.normalize`: native form to engine form. -/
def normalize (h : Host) (path : List Char) : List Char :=
  let path := TrimLeft path [PathSeparator h.goos]
  if h.goos = .darwin then
    h.NFC path
  else if h.goos = .windows then
    Replace path [PathSeparator h.goos] InternalPathSeparator
  else
    path

/-- Go `FSClient.denormalize`: engine form to native form. -/
def denormalize (h : Host) (path : List Char) : List Char :=
  if h.goos = .darwin then
    let path := '/' :: TrimLeft path InternalPathSeparator
    h.NFD path
  else if h.goos = .windows then
    Replace path InternalPathSeparator [PathSeparator h.goos]
  else
    path


/-- Go `strings.HasPrefix`. -/
def HasPrefix (s pre : List Char) : Bool := pre.isPrefixOf s

/-- Go `os.IsPathSeparator`: Windows accepts both slashes. -/
def IsPathSeparator (goos : Goos) (c : Char) : Bool :=
  c = '/' || (goos = .windows && c = '\\')

/-- The components of a path between separators, empty ones included. -/
def splitPath (goos : Goos) : List Char → List (List Char)
  | [] => [[]]
  | c :: cs =>
    if IsPathSeparator goos c then [] :: splitPath goos cs
    else
      match splitPath goos cs with
      | [] => [[c]]
      | w :: ws => (c :: w) :: ws

/-- The component pass of Go `filepath.Clean`: empty and `.` components go, `..` removes
the component before it; at the top, `..` is dropped on a rooted path and kept otherwise.
The stack is kept in reverse. -/
def cleanStack (rooted : Bool) : List (List Char) → List (List Char) → List (List Char)
  | [], acc => acc
  | comp :: rest, acc =>
    if comp = [] ∨ comp = ['.'] then cleanStack rooted rest acc
    else if comp = ['.', '.'] then
      match acc with
      | top :: below =>
        if top = ['.', '.'] then cleanStack rooted rest (comp :: acc)
        else cleanStack rooted rest below
      | [] => if rooted then cleanStack rooted rest [] else cleanStack rooted rest [comp]
    else cleanStack rooted rest (comp :: acc)

/-- Components joined by the separator. -/
def joinComponents (sep : Char) : List (List Char) → List Char
  | [] => []
  | [c] => c
  | c :: d :: rest => c ++ sep :: joinComponents sep (d :: rest)

/-- Go `filepath.Clean` (volume names of Windows paths are not modelled). -/
def Clean (goos : Goos) (path : List Char) : List Char :=
  match path with
  | [] => ['.']
  | c :: _ =>
    let rooted := IsPathSeparator goos c
    let body := joinComponents (PathSeparator goos) (cleanStack rooted (splitPath goos path) []).reverse
    if rooted then PathSeparator goos :: body
    else if body = [] then ['.'] else body

/-- Go `filepath.Join` of two elements: empty elements are ignored, the result is cleaned. -/
def Join (goos : Goos) (a b : List Char) : List Char :=
  if a = [] then (if b = [] then [] else Clean goos b)
  else if b = [] then Clean goos a
  else Clean goos (a ++ PathSeparator goos :: b)

/-- Go `filepath.Base`: the last element of the path, trailing separators removed. -/
def Base (goos : Goos) (path : List Char) : List Char :=
  match path with
  | [] => ['.']
  | _ :: _ =>
    match (path.reverse.dropWhile (IsPathSeparator goos)).reverse with
    | [] => [PathSeparator goos]
    | c :: cs => (splitPath goos (c :: cs)).getLastD []

/-- A plain path component: not empty, not `.`, not `..`, and free of separators. -/
def plainComp (goos : Goos) (w : List Char) : Prop :=
  w ≠ [] ∧ w ≠ ['.'] ∧ w ≠ ['.', '.'] ∧ ∀ ch ∈ w, IsPathSeparator goos ch = false

/-- Go `SyncTmpPrefix`. -/
def SyncTmpPrefix : List Char := ".tmp.write.".toList

/-- Modelled from the spec: `common.PYDIO_SYNC_HIDDEN_FILE_META` is declared outside the
sources at hand; the spec names the sidecar `.pydio`. -/
def PYDIO_SYNC_HIDDEN_FILE_META : List Char := ".pydio".toList

/-! ## Filesystem model

`afero.Fs` is a library outside the repository. It is modelled as a tree of entries below
the root the endpoint is confined to. Names are resolved by component (`RealPath`), a
name that climbs above the root does not exist. Permission bits are the owner bits of the
mode: creating or removing an entry needs the write bit of the directory that holds it,
opening needs the read bit, overwriting a file its write bit. -/

/-- The errors of the filesystem. -/
inductive FsError where
  | notExist
  | notDir
  | isDir
  | permission
  | notEmpty
  | invalid
  deriving DecidableEq, Repr

/-- Go `os.IsNotExist` on an error that may be nil. -/
def IsNotExist : Option FsError → Bool
  | some .notExist => true
  | _ => false

/-- An entry of the tree: a file with its content, or a directory with its children in
creation order; both with mode bits and modification time. -/
inductive Entry where
  | file (content : String) (mode : Nat) (mtime : Int)
  | dir (children : List (List Char × Entry)) (mode : Nat) (mtime : Int)
  deriving Repr

/-- Go `os.FileInfo`, as far as the endpoint reads it. -/
structure FileInfo where
  IsDir : Bool
  Size : Nat
  ModTime : Int
  Mode : Nat
  deriving DecidableEq, Repr

/-- The filesystem below the root, and the clock reading stamped on entries it creates. -/
structure Fs where
  root : Entry
  now : Int

/-- Owner read bit. -/
def canRead (mode : Nat) : Bool := mode / 256 % 2 = 1

/-- Owner write bit. -/
def canWrite (mode : Nat) : Bool := mode / 128 % 2 = 1

/-- The mode bits of an entry. -/
def Entry.mode : Entry → Nat
  | .file _ m _ => m
  | .dir _ m _ => m

/-- The stat record of an entry. -/
def Entry.info : Entry → FileInfo
  | .file content m t => { IsDir := false, Size := content.utf8ByteSize, ModTime := t, Mode := m }
  | .dir _ m t => { IsDir := true, Size := 0, ModTime := t, Mode := m }

/-- The child of that name, if any. -/
def lookupChild (n : List Char) : List (List Char × Entry) → Option Entry
  | [] => none
  | (k, v) :: rest => if k = n then some v else lookupChild n rest

/-- Replace the child of that name, or add it at the end. -/
def setChild (n : List Char) (e : Entry) : List (List Char × Entry) → List (List Char × Entry)
  | [] => [(n, e)]
  | (k, v) :: rest => if k = n then (n, e) :: rest else (k, v) :: setChild n e rest

/-- Remove the children of that name. -/
def eraseChild (n : List Char) : List (List Char × Entry) → List (List Char × Entry)
  | [] => []
  | (k, v) :: rest => if k = n then eraseChild n rest else (k, v) :: eraseChild n rest

/-- The entry at a resolved path. -/
def Entry.get : Entry → List (List Char) → Except FsError Entry
  | e, [] => .ok e
  | .file _ _ _, _ :: _ => .error .notDir
  | .dir cs _ _, n :: rest =>
    match lookupChild n cs with
    | none => .error .notExist
    | some c => c.get rest

/-- Create the directory at a resolved path and its missing parents with the given mode. -/
def Entry.mkdirAll (perm : Nat) (now : Int) : Entry → List (List Char) → Except FsError Entry
  | .file _ _ _, _ => .error .notDir
  | .dir cs m t, [] => .ok (.dir cs m t)
  | .dir cs m t, n :: rest =>
    match lookupChild n cs with
    | some c =>
      match Entry.mkdirAll perm now c rest with
      | .ok c2 => .ok (.dir (setChild n c2 cs) m t)
      | .error e => .error e
    | none =>
      if canWrite m then
        match Entry.mkdirAll perm now (.dir [] perm now) rest with
        | .ok c2 => .ok (.dir (setChild n c2 cs) m t)
        | .error e => .error e
      else .error .permission

/-- Write a whole file at a resolved path, creating it with the given mode when it is
missing and truncating it otherwise. -/
def Entry.writeFile (data : String) (perm : Nat) (now : Int) :
    Entry → List (List Char) → Except FsError Entry
  | _, [] => .error .isDir
  | .file _ _ _, _ :: _ => .error .notDir
  | .dir cs m t, [n] =>
    match lookupChild n cs with
    | none =>
      if canWrite m then .ok (.dir (setChild n (.file data perm now) cs) m t)
      else .error .permission
    | some (.file _ fm _) =>
      if canWrite fm then .ok (.dir (setChild n (.file data fm now) cs) m t)
      else .error .permission
    | some (.dir _ _ _) => .error .isDir
  | .dir cs m t, n :: r :: rs =>
    match lookupChild n cs with
    | none => .error .notExist
    | some c =>
      match Entry.writeFile data perm now c (r :: rs) with
      | .ok c2 => .ok (.dir (setChild n c2 cs) m t)
      | .error e => .error e

/-- Remove the entry at a resolved, non-empty path with everything below it; a missing
entry is no error. -/
def Entry.removeAll : Entry → List (List Char) → Except FsError Entry
  | e, [] => .ok e
  | .file _ _ _, _ :: _ => .error .notDir
  | .dir cs m t, [n] =>
    match lookupChild n cs with
    | none => .ok (.dir cs m t)
    | some _ => if canWrite m then .ok (.dir (eraseChild n cs) m t) else .error .permission
  | .dir cs m t, n :: r :: rs =>
    match lookupChild n cs with
    | none => .ok (.dir cs m t)
    | some c =>
      match Entry.removeAll c (r :: rs) with
      | .ok c2 => .ok (.dir (setChild n c2 cs) m t)
      | .error e => .error e

/-- The second tree is the first with one entry added at the path, whose parent existed:
along the path the directories keep mode and time, and the last one gains one child. -/
def addedAt : Entry → Entry → List (List Char) → Prop
  | .dir cs m t, .dir cs2 m2 t2, [n] =>
    m2 = m ∧ t2 = t ∧ lookupChild n cs = none ∧ ∃ x, cs2 = cs ++ [(n, x)]
  | .dir cs m t, .dir cs2 m2 t2, n :: r :: rs =>
    m2 = m ∧ t2 = t ∧
      ∃ c c2, lookupChild n cs = some c ∧ cs2 = setChild n c2 cs ∧ addedAt c c2 (r :: rs)
  | _, _, _ => False

/-- The component pass of `BasePathFs.RealPath`: the name is joined to the root and
cleaned; a name that leaves the root is refused. The stack is kept in reverse. -/
def realPathStack : List (List Char) → List (List Char) → Option (List (List Char))
  | [], acc => some acc.reverse
  | comp :: rest, acc =>
    if comp = [] ∨ comp = ['.'] then realPathStack rest acc
    else if comp = ['.', '.'] then
      match acc with
      | _ :: below => realPathStack rest below
      | [] => none
    else realPathStack rest (comp :: acc)

/-- Go `BasePathFs.RealPath`, relative to the root: the components of the entry a name
denotes, or nothing when the name leaves the root (`os.ErrNotExist`). -/
def RealPath (goos : Goos) (name : List Char) : Option (List (List Char)) :=
  realPathStack (splitPath goos name) []

/-- Go `Fs.Stat`. -/
def Fs.Stat (goos : Goos) (fs : Fs) (name : List Char) : Except FsError FileInfo :=
  match RealPath goos name with
  | none => .error .notExist
  | some p =>
    match fs.root.get p with
    | .ok e => .ok e.info
    | .error err => .error err

/-- Go `Fs.MkdirAll`. -/
def Fs.MkdirAll (goos : Goos) (fs : Fs) (name : List Char) (perm : Nat) : Except FsError Fs :=
  match RealPath goos name with
  | none => .error .notExist
  | some p =>
    match Entry.mkdirAll perm fs.now fs.root p with
    | .ok r => .ok { fs with root := r }
    | .error err => .error err

/-- Go `afero.WriteFile`: create or truncate, write, close. -/
def Fs.WriteFile (goos : Goos) (fs : Fs) (name : List Char) (data : String) (perm : Nat) :
    Except FsError Fs :=
  match RealPath goos name with
  | none => .error .notExist
  | some p =>
    match Entry.writeFile data perm fs.now fs.root p with
    | .ok r => .ok { fs with root := r }
    | .error err => .error err

/-- Go `Fs.OpenFile(name, os.O_RDONLY, perm)` and `Fs.Open(name)`: the entry opened for
reading, or the error and a nil file. -/
def Fs.Open (goos : Goos) (fs : Fs) (name : List Char) : Except FsError Entry :=
  match RealPath goos name with
  | none => .error .notExist
  | some p =>
    match fs.root.get p with
    | .ok e => if canRead e.mode then .ok e else .error .permission
    | .error err => .error err

/-- Reading an open entry to its end: a directory cannot be read. -/
def readAll : Entry → Except FsError String
  | .file content _ _ => .ok content
  | .dir _ _ _ => .error .isDir

/-- Go `afero.ReadFile`. -/
def Fs.ReadFile (goos : Goos) (fs : Fs) (name : List Char) : Except FsError String :=
  match Fs.Open goos fs name with
  | .ok e => readAll e
  | .error err => .error err

/-- Go `Fs.RemoveAll`. The root itself cannot be removed from below: its content goes and
the removal of the directory is refused. -/
def Fs.RemoveAll (goos : Goos) (fs : Fs) (name : List Char) : Fs × Option FsError :=
  match RealPath goos name with
  | none => (fs, some .notExist)
  | some [] =>
    match fs.root with
    | .dir _ m t => ({ fs with root := .dir [] m t }, some .permission)
    | .file _ _ _ => (fs, some .permission)
  | some (n :: rest) =>
    match Entry.removeAll fs.root (n :: rest) with
    | .ok r => ({ fs with root := r }, none)
    | .error err => (fs, some err)

/-- Put an entry at a resolved path, in place of what is there; the directory that holds
it must exist and be writable. -/
def Entry.put (x : Entry) : Entry → List (List Char) → Except FsError Entry
  | _, [] => .error .invalid
  | .file _ _ _, _ :: _ => .error .notDir
  | .dir cs m t, [n] =>
    if canWrite m then .ok (.dir (setChild n x cs) m t) else .error .permission
  | .dir cs m t, n :: r :: rs =>
    match lookupChild n cs with
    | none => .error .notExist
    | some c =>
      match Entry.put x c (r :: rs) with
      | .ok c2 => .ok (.dir (setChild n c2 cs) m t)
      | .error e => .error e

/-- May the source of a rename take the place of what is at the target: a directory
replaces an empty directory only, a file replaces a file only. -/
def renameTarget (src : Entry) : Except FsError Entry → Option FsError
  | .error .notExist => none
  | .error e => some e
  | .ok (.file _ _ _) =>
    match src with
    | .file _ _ _ => none
    | .dir _ _ _ => some .notDir
  | .ok (.dir cs _ _) =>
    match src with
    | .file _ _ _ => some .isDir
    | .dir _ _ _ => if cs.isEmpty then none else some .notEmpty

/-- Go `Fs.Rename`, after POSIX `rename`: the root is neither moved nor replaced, a
directory does not move below itself. -/
def Fs.Rename (goos : Goos) (fs : Fs) (oldname newname : List Char) : Fs × Option FsError :=
  match RealPath goos oldname, RealPath goos newname with
  | some po, some pn =>
    match fs.root.get po with
    | .error e => (fs, some e)
    | .ok src =>
      if po = [] ∨ pn = [] then (fs, some .invalid)
      else if po = pn then (fs, none)
      else if po.isPrefixOf pn then (fs, some .invalid)
      else
        match renameTarget src (fs.root.get pn) with
        | some e => (fs, some e)
        | none =>
          match Entry.removeAll fs.root po with
          | .error e => (fs, some e)
          | .ok r1 =>
            match Entry.put src r1 pn with
            | .error e => (fs, some e)
            | .ok r2 => ({ fs with root := r2 }, none)
  | _, _ => (fs, some .notExist)

/-- Names in byte order, the order of `sort.Strings`. -/
def nameLe : List Char → List Char → Bool
  | [], _ => true
  | _ :: _, [] => false
  | a :: as, b :: bs =>
    if a.toNat < b.toNat then true
    else if b.toNat < a.toNat then false
    else nameLe as bs

/-- Insertion into a list of names in order. -/
def insertName (n : List Char) : List (List Char) → List (List Char)
  | [] => [n]
  | m :: rest => if nameLe n m then n :: m :: rest else m :: insertName n rest

/-- Go `sort.Strings`. -/
def sortNames (names : List (List Char)) : List (List Char) :=
  names.foldr insertName []

/-- Go `afero.readDirNames`: the names in a directory, sorted. -/
def Fs.readDirNames (goos : Goos) (fs : Fs) (name : List Char) :
    Except FsError (List (List Char)) :=
  match Fs.Open goos fs name with
  | .error err => .error err
  | .ok (.file _ _ _) => .error .notDir
  | .ok (.dir cs _ _) => .ok (sortNames (cs.map Prod.fst))

/-- Go `afero.ReadDir`: the entries of a directory with their stat records, sorted by
name. -/
def Fs.ReadDir (goos : Goos) (fs : Fs) (name : List Char) :
    Except FsError (List (List Char × FileInfo)) :=
  match Fs.Open goos fs name with
  | .error err => .error err
  | .ok (.file _ _ _) => .error .notDir
  | .ok (.dir cs _ _) =>
    .ok ((sortNames (cs.map Prod.fst)).filterMap
      (fun n => (lookupChild n cs).map (fun e => (n, e.info))))

mutual
/-- The height of a tree of entries. -/
def Entry.height : Entry → Nat
  | .file _ _ _ => 1
  | .dir cs _ _ => 1 + heightOfChildren cs
/-- The height of the tallest child. -/
def heightOfChildren : List (List Char × Entry) → Nat
  | [] => 0
  | (_, e) :: rest => max e.height (heightOfChildren rest)
end

/-- Go `afero.walk`: the visit of one entry, then of the entries of a directory in the
order of their names. The function visiting never returns an error in this package, so
the early returns of `afero.walk` are left out. The filesystem is read from the state at
every step, as the visits may change it. `fuel` bounds the depth. -/
def aferoWalkAux {σ : Type} (goos : Goos) (getFs : σ → Fs)
    (walkFn : σ → List Char → Option FileInfo → Option FsError → σ) :
    Nat → σ → List Char → FileInfo → σ
  | 0, s, _, _ => s
  | fuel + 1, s, path, info =>
    let s1 := walkFn s path (some info) none
    if info.IsDir = false then s1
    else
      match Fs.readDirNames goos (getFs s1) path with
      | .error err => walkFn s1 path (some info) (some err)
      | .ok names =>
        names.foldl (fun st name =>
          let filename := Join goos path name
          match Fs.Stat goos (getFs st) filename with
          | .error err => walkFn st filename none (some err)
          | .ok fi => aferoWalkAux goos getFs walkFn fuel st filename fi) s1

/-- Go `afero.Walk`. The depth bound is the height of the tree and one level more, since
a visit adds at most a sidecar file to the directory visited. -/
def aferoWalk {σ : Type} (goos : Goos) (getFs : σ → Fs)
    (walkFn : σ → List Char → Option FileInfo → Option FsError → σ) (s : σ)
    (root : List Char) : σ :=
  match Fs.Stat goos (getFs s) root with
  | .error err => walkFn s root none (some err)
  | .ok info => aferoWalkAux goos getFs walkFn ((getFs s).root.height + 1) s root info

/-! ## Nodes, the endpoint, outcomes -/

/-- Go `tree.NodeType`. -/
inductive NodeType where
  | UNKNOWN
  | LEAF
  | COLLECTION
  deriving DecidableEq, Repr

/-- Go `tree.Node`, the fields the endpoint fills. -/
structure Node where
  Path : List Char
  Type_ : NodeType
  Uuid : String
  Etag : String
  MTime : Int
  Size : Nat
  Mode : Nat
  deriving DecidableEq, Repr

/-- Go `Node.IsLeaf`. -/
def Node.IsLeaf (n : Node) : Bool := n.Type_ = .LEAF

/-- The errors the endpoint returns. -/
inductive Error where
  | fs (e : FsError)
  | notFound (path : List Char) (cause : FsError)
  | useNodePut
  deriving DecidableEq, Repr

/-- How a Go call ends: with a value, with an error, or in a runtime panic. -/
inductive Outcome (α : Type) where
  | ok (a : α)
  | error (e : Error)
  | panic
  deriving DecidableEq, Repr

/-- Go `model.EndpointOptions`, the option the endpoint reads. -/
structure EndpointOptions where
  BrowseOnly : Bool
  deriving DecidableEq, Repr

/-- Go `FSClient`. The filesystem behind `FS` is passed to each operation as a state. The
snapshot target is an object outside the endpoint: the field says whether one is attached
and the operations return the calls made to it. `refHashStore`, when attached, is the
`LoadNode` of a peer endpoint. `md5` is the hex digest of `crypto/md5`. -/
structure FSClient where
  host : Host
  options : EndpointOptions
  updateSnapshot : Bool
  refHashStore : Option (List Char → Option Node)
  md5 : String → String
  inMemory : Bool

/-- A call made to the snapshot target. -/
inductive SnapshotCall where
  | CreateNode (node : Node) (updateIfExists : Bool)
  | DeleteNode (path : List Char)
  | MoveNode (oldPath newPath : List Char)
  deriving DecidableEq, Repr

/-- The error of a filesystem call, nil when it succeeded. -/
def errOf {α : Type} : Except FsError α → Option FsError
  | .ok _ => none
  | .error e => some e

/-! ## Folder identity store, content hasher, node loader -/

/-- Go `FSClient.readOrCreateFolderId`; `fresh` is the value `uuid.New()` returns when it
is called. When the sidecar cannot be opened for a reason other than its absence, the else
branch calls `Close` on the nil file, a nil dereference. -/
def readOrCreateFolderId (c : FSClient) (fs : Fs) (path : List Char) (fresh : String) :
    Fs × Outcome String :=
  if c.options.BrowseOnly then (fs, .ok fresh)
  else
    let sidecar := Join c.host.goos path PYDIO_SYNC_HIDDEN_FILE_META
    match Fs.Open c.host.goos fs sidecar with
    | .error uidErr =>
      if IsNotExist (some uidErr) then
        match Fs.WriteFile c.host.goos fs sidecar fresh 438 with
        | .error we => (fs, .error (.fs we))
        | .ok fs2 => (fs2, .ok fresh)
      else (fs, .panic)
    | .ok _ =>
      match Fs.ReadFile c.host.goos fs sidecar with
      | .error re => (fs, .error (.fs re))
      | .ok content => (fs, .ok content)

/-- Go `FSClient.getFileHash`. -/
def getFileHash (c : FSClient) (fs : Fs) (path : List Char) : Outcome String :=
  match Fs.Open c.host.goos fs path with
  | .error err => .error (.fs err)
  | .ok f =>
    match readAll f with
    | .error err => .error (.fs err)
    | .ok content => .ok (c.md5 content)

/-- The hash the reference store vouches for, empty when it has none (the leaf branch of
`loadNode` before it falls back to hashing). -/
def refHash (c : FSClient) (path : List Char) (stat : FileInfo) : String :=
  match c.refHashStore with
  | none => ""
  | some load =>
    match load path with
    | none => ""
    | some refNode =>
      if refNode.Size = stat.Size ∧ refNode.MTime = stat.ModTime ∧ refNode.Etag ≠ "" then
        refNode.Etag
      else ""

/-- The tail of `loadNode`, once the stat record is at hand. -/
def loadNodeStat (c : FSClient) (fs : Fs) (path : List Char) (stat : FileInfo)
    (fresh : String) : Fs × Outcome Node :=
  let dnPath := denormalize c.host path
  if stat.IsDir then
    match readOrCreateFolderId c fs dnPath fresh with
    | (fs2, .ok id) =>
      (fs2, .ok { Path := path, Type_ := .COLLECTION, Uuid := id, Etag := "",
                  MTime := stat.ModTime, Size := stat.Size, Mode := stat.Mode })
    | (fs2, .error err) => (fs2, .error err)
    | (fs2, .panic) => (fs2, .panic)
  else
    let hash := refHash c path stat
    if hash.length = 0 then
      match getFileHash c fs dnPath with
      | .ok h =>
        (fs, .ok { Path := path, Type_ := .LEAF, Uuid := "", Etag := h,
                   MTime := stat.ModTime, Size := stat.Size, Mode := stat.Mode })
      | .error err => (fs, .error err)
      | .panic => (fs, .panic)
    else
      (fs, .ok { Path := path, Type_ := .LEAF, Uuid := "", Etag := hash,
                 MTime := stat.ModTime, Size := stat.Size, Mode := stat.Mode })

/-- Go `FSClient.loadNode`, with the optional stat record of a walk. -/
def loadNode (c : FSClient) (fs : Fs) (path : List Char) (stat : Option FileInfo)
    (fresh : String) : Fs × Outcome Node :=
  match stat with
  | some st => loadNodeStat c fs path st fresh
  | none =>
    match Fs.Stat c.host.goos fs (denormalize c.host path) with
    | .error err =>
      if IsNotExist (some err) then (fs, .error (.notFound path err))
      else (fs, .error (.fs err))
    | .ok st => loadNodeStat c fs path st fresh

/-- Go `FSClient.LoadNode`. -/
def LoadNode (c : FSClient) (fs : Fs) (path : List Char) (fresh : String) : Fs × Outcome Node :=
  loadNode c fs path none fresh

/-! ## Mutation API -/

/-- The state, the returned error and the snapshot calls of a mutation. -/
structure Mutation where
  fs : Fs
  err : Option Error
  snapshot : List SnapshotCall

/-- Go `FSClient.CreateNode`. -/
def CreateNode (c : FSClient) (fs : Fs) (node : Node) (updateIfExists : Bool) : Mutation :=
  if node.IsLeaf then { fs := fs, err := some .useNodePut, snapshot := [] }
  else
    let fPath := denormalize c.host node.Path
    let e := errOf (Fs.Stat c.host.goos fs fPath)
    if IsNotExist e then
      let made := Fs.MkdirAll c.host.goos fs fPath 511
      let fs1 := match made with
        | .ok f => f
        | .error _ => fs
      let fs2 :=
        if node.Uuid ≠ "" ∧ c.options.BrowseOnly = false then
          match Fs.WriteFile c.host.goos fs1 (Join c.host.goos fPath PYDIO_SYNC_HIDDEN_FILE_META)
              node.Uuid 511 with
          | .ok f => f
          | .error _ => fs1
        else fs1
      { fs := fs2, err := (errOf made).map Error.fs,
        snapshot := if c.updateSnapshot then [.CreateNode node updateIfExists] else [] }
    else { fs := fs, err := none, snapshot := [] }

/-- Go `FSClient.UpdateNode`. -/
def UpdateNode (c : FSClient) (fs : Fs) (node : Node) : Mutation :=
  CreateNode c fs node true

/-- Go `FSClient.DeleteNode`. -/
def DeleteNode (c : FSClient) (fs : Fs) (path : List Char) : Mutation :=
  let e := errOf (Fs.Stat c.host.goos fs (denormalize c.host path))
  let removed : Fs × Option FsError :=
    if IsNotExist e then (fs, none)
    else Fs.RemoveAll c.host.goos fs (denormalize c.host path)
  { fs := removed.1, err := removed.2.map Error.fs,
    snapshot := if removed.2 = none ∧ c.updateSnapshot then [.DeleteNode path] else [] }

/-! ## Retry helpers (common/sync/model/retry.go)

The channels of a `select` are modelled by the sequence of their firings, in the order
the loop receives them. The function retried is a closure: its result may change from one
invocation to the next, so it is given the number of the invocation (from 0). -/

/-- A firing received by the loop of `Retry`. -/
inductive RetrySignal where
  | tick
  | timeout
  deriving DecidableEq, Repr

/-- A firing received by the loop of `RetryWithCtx`. -/
inductive CtxSignal where
  | tick
  | timeout
  | done
  deriving DecidableEq, Repr

/-- A non-nil error returned by the retry helpers: the error of the function retried,
`fmt.Errorf("timeout")`, or `ctx.Err()`. -/
inductive RetryError (ε : Type) where
  | last (e : ε)
  | timeout
  | ctxErr
  deriving DecidableEq, Repr

/-- The loop has returned an error value (nil included), or still waits in `select`. -/
inductive RetryResult (ε : Type) where
  | returned (err : Option (RetryError ε))
  | waiting
  deriving DecidableEq, Repr

/-- The `for { select { ... } }` loop of `Retry`; `calls` invocations have been made. -/
def retryLoop {ε : Type} (f : Nat → Option ε) :
    Nat → Option ε → List RetrySignal → RetryResult ε
  | _, _, [] => .waiting
  | calls, _, .tick :: rest =>
    match f calls with
    | none => .returned none
    | some e => retryLoop f (calls + 1) (some e) rest
  | _, lastErr, .timeout :: _ =>
    match lastErr with
    | some e => .returned (some (.last e))
    | none => .returned (some .timeout)

/-- Go `Retry`: the error of the first invocation lives in the scope of the `if` only,
`lastErr` starts as nil. -/
def Retry {ε : Type} (f : Nat → Option ε) (signals : List RetrySignal) : RetryResult ε :=
  match f 0 with
  | none => .returned none
  | some _ => retryLoop f 1 none signals

/-- The loop of `RetryWithCtx`. The function gets the number of the invocation and the
attempt counter `i`; the counters handed over are logged, latest first. -/
def retryWithCtxLoop {ε : Type} (f : Nat → Nat → Option ε) :
    Nat → Nat → Option ε → List Nat → List CtxSignal → RetryResult ε × List Nat
  | _, _, _, log, [] => (.waiting, log.reverse)
  | calls, i, _, log, .tick :: rest =>
    match f calls i with
    | none => (.returned none, (i :: log).reverse)
    | some e => retryWithCtxLoop f (calls + 1) (i + 1) (some e) (i :: log) rest
  | _, _, lastErr, log, .timeout :: _ =>
    match lastErr with
    | some e => (.returned (some (.last e)), log.reverse)
    | none => (.returned (some .timeout), log.reverse)
  | _, _, lastErr, log, .done :: _ =>
    match lastErr with
    | some e => (.returned (some (.last e)), log.reverse)
    | none => (.returned (some .ctxErr), log.reverse)

/-- Go `RetryWithCtx`, with the attempt counters it passed to the function, in order. -/
def RetryWithCtx {ε : Type} (f : Nat → Nat → Option ε) (signals : List CtxSignal) :
    RetryResult ε × List Nat :=
  match f 0 0 with
  | none => (.returned none, [0])
  | some _ => retryWithCtxLoop f 1 0 none [0] signals

/-- A function that fails at every invocation with the number of the invocation. -/
def alwaysFails (k : Nat) : Option Nat := some k

/-- The same with an attempt counter, which it ignores. -/
def alwaysFailsCtx (k _i : Nat) : Option Nat := some k

/-- A function that fails three times and then succeeds. -/
def failsThrice (k : Nat) : Option Nat := if k < 3 then some k else none

/-! ## Duplicate folder report -/

/-- A Go `map[string][]*tree.Node` as an association list; a nil pointer is `none`. -/
abbrev NodeMap := List (String × List (Option Node))

/-- Map lookup `m[k]`. -/
def NodeMap.get (m : NodeMap) (k : String) : Option (List (Option Node)) :=
  match m with
  | [] => none
  | (k2, v) :: rest => if k2 = k then some v else NodeMap.get rest k

/-- Map assignment `m[k] = v`. -/
def NodeMap.set (m : NodeMap) (k : String) (v : List (Option Node)) : NodeMap :=
  match m with
  | [] => [(k, v)]
  | (k2, v2) :: rest => if k2 = k then (k, v) :: rest else (k2, v2) :: NodeMap.set rest k v

/-- What the walk hands to its visitor: a path, a node or nil, an error or nil. -/
structure Visit where
  path : List Char
  node : Option Node
  err : Option Error
  deriving DecidableEq, Repr

/-- The visitor of `ExistingFolders` on the maps `data` and `final`. A slice kept in
`data` is full (length equals capacity), so `append` copies it and the slices of the two
maps share no memory. -/
def existingFoldersVisit (maps : NodeMap × NodeMap) (v : Visit) : NodeMap × NodeMap :=
  match v.err, v.node with
  | some _, _ => maps
  | none, none => maps
  | none, some node =>
    if node.IsLeaf then maps
    else
      match maps.1.get node.Uuid with
      | some s => (maps.1, maps.2.set node.Uuid (s ++ [some node]))
      | none =>
        let data1 := maps.1.set node.Uuid [none]
        (data1.set node.Uuid ((data1.get node.Uuid).getD [] ++ [some node]), maps.2)

/-- The map `final` of `ExistingFolders` after the walk has delivered these visits. -/
def existingFoldersOf (visits : List Visit) : NodeMap :=
  (visits.foldl existingFoldersVisit ([], [])).2

/-! ## Walker -/

/-- Go `path.Join` of two elements: the slash-separated join. -/
def pathJoin (a b : List Char) : List Char := Join .other a b

/-- The state of a walk: the filesystem, the visits made so far, the number of nodes
loaded (each load may draw a uuid), and whether a load has panicked. -/
structure WalkState where
  fs : Fs
  visits : List Visit
  loads : Nat
  panicked : Bool

/-- The `wrappingFunc` of `FSClient.Walk`; `fresh k` is the uuid the generator gives to the
load number `k`. After a panic nothing runs any more. -/
def wrappingFunc (c : FSClient) (fresh : Nat → String) (root : List Char) (s : WalkState)
    (path : List Char) (info : Option FileInfo) (err : Option FsError) : WalkState :=
  if s.panicked then s
  else
    match err with
    | some e => { s with visits := s.visits ++ [{ path := [], node := none, err := some (.fs e) }] }
    | none =>
      if path.length = 0 ∨ path = ['/'] ∨ normalize c.host path = TrimLeft root ['/'] ∨
          HasPrefix (Base c.host.goos path) SyncTmpPrefix = true then s
      else
        let path := normalize c.host path
        match loadNode c s.fs path info (fresh s.loads) with
        | (fs2, .ok node) =>
          { fs := fs2, visits := s.visits ++ [{ path := path, node := some node, err := none }],
            loads := s.loads + 1, panicked := false }
        | (fs2, .error e) =>
          { fs := fs2, visits := s.visits ++ [{ path := [], node := none, err := some e }],
            loads := s.loads + 1, panicked := false }
        | (fs2, .panic) => { s with fs := fs2, panicked := true }

/-- The state after a walk and the error `Walk` returns. -/
structure WalkResult where
  state : WalkState
  err : Option FsError

/-- Go `FSClient.Walk`. -/
def Walk (c : FSClient) (fs : Fs) (fresh : Nat → String) (root : List Char)
    (recursive : Bool) : WalkResult :=
  let start : WalkState := { fs := fs, visits := [], loads := 0, panicked := false }
  if recursive = false then
    match Fs.ReadDir c.host.goos fs root with
    | .error er => { state := start, err := some er }
    | .ok infos =>
      { state := infos.foldl
          (fun s i => wrappingFunc c fresh root s (pathJoin root i.1) (some i.2) none) start,
        err := none }
  else
    { state := aferoWalk c.host.goos WalkState.fs (wrappingFunc c fresh root) start root,
      err := none }

/-- Go `FSClient.ExistingFolders`: the map `final` after the walk of the whole tree. -/
def ExistingFolders (c : FSClient) (fs : Fs) (fresh : Nat → String) : NodeMap :=
  existingFoldersOf (Walk c fs fresh ['/'] true).state.visits

/-- Modelled from the spec: `model.IsIgnoredFile` is declared outside the sources at hand;
of the ignored basenames the spec names `.DS_Store`. -/
def IsIgnoredFile (name : List Char) : Bool := name = ".DS_Store".toList

/-! ## Moving -/

/-- Go `strings.TrimPrefix`. -/
def TrimPrefix (s pre : List Char) : List Char :=
  if HasPrefix s pre then s.drop pre.length else s

/-- The renames `moveRecursively` asks for, in order, given the paths the walk of
`oldPath` has collected: `moves[i]` is the path number `i`. The loop reads the indices
`total - key` for `key` from 0, an index without entry gives the empty string and is
skipped. -/
def moveRecursivelyRenames (moves : List (List Char)) (oldPath newPath : List Char) :
    List (List Char × List Char) :=
  let total := moves.length
  ((List.range total).filterMap (fun key =>
    let wPath := moves.getD (total - key) []
    if wPath.length = 0 then none
    else some (wPath, newPath ++ TrimPrefix wPath oldPath))) ++ [(oldPath, newPath)]

/-- Go `FSClient.moveRecursively`: the errors of the renames are dropped. -/
def moveRecursively (c : FSClient) (fs : Fs) (oldPath newPath : List Char) : Fs :=
  let collected : Fs × List (List Char) :=
    aferoWalk c.host.goos Prod.fst (fun s wPath _ _ => (s.1, s.2 ++ [wPath])) (fs, []) oldPath
  (moveRecursivelyRenames collected.2 oldPath newPath).foldl
    (fun f r => (Fs.Rename c.host.goos f r.1 r.2).1) fs

/-- The paths the walk of `moveRecursively` collects, in the order of the visits: the
content of `moves` when the loop starts. -/
def collectedMoves (c : FSClient) (fs : Fs) (oldPath : List Char) : List (List Char) :=
  (aferoWalk c.host.goos Prod.fst (fun s wPath _ _ => (s.1, s.2 ++ [wPath])) (fs, [])
    oldPath).2

/-- Go `FSClient.MoveNode`; no result stands for a panic: when `Stat` fails with an error
other than not-found, `stat` is nil and `stat.IsDir()` dereferences it. -/
def MoveNode (c : FSClient) (fs : Fs) (oldPath newPath : List Char) : Option Mutation :=
  let oldNative := denormalize c.host oldPath
  let newNative := denormalize c.host newPath
  let moved : Option (Fs × Option FsError) :=
    match Fs.Stat c.host.goos fs oldNative with
    | .error e => if IsNotExist (some e) then some (fs, none) else none
    | .ok stat =>
      if stat.IsDir ∧ c.inMemory then some (moveRecursively c fs oldNative newNative, none)
      else some (Fs.Rename c.host.goos fs oldNative newNative)
  match moved with
  | none => none
  | some (fs2, err) =>
    some { fs := fs2, err := err.map Error.fs,
           snapshot := if err = none ∧ c.updateSnapshot then [.MoveNode oldPath newPath] else [] }

/-! ## Sample hosts, endpoints and states -/

/-- A digest for the samples: the content itself stands for its hash. -/
def sampleMd5 (content : String) : String := content

/-- An endpoint on the third platform branch, with or without a snapshot target. -/
def linuxClient (snapshot : Bool) : FSClient :=
  { host := { goos := .other, NFC := id, NFD := id }, options := { BrowseOnly := false },
    updateSnapshot := snapshot, refHashStore := none, md5 := sampleMd5, inMemory := false }

/-- A browse-only endpoint. -/
def browseClient : FSClient :=
  { host := { goos := .other, NFC := id, NFD := id }, options := { BrowseOnly := true },
    updateSnapshot := false, refHashStore := none, md5 := sampleMd5, inMemory := false }

/-- An empty, writable root. -/
def emptyFs : Fs := { root := .dir [] 511 0, now := 0 }

/-- A root holding the folder `a`, whose sidecar carries the uuid `u0`. -/
def existingFolderFs : Fs :=
  { root := .dir [(['a'], .dir [(PYDIO_SYNC_HIDDEN_FILE_META, .file "u0" 511 0)] 511 0)] 511 0,
    now := 0 }

/-- A root holding the folder `a`, without a sidecar yet. -/
def bareFolderFs : Fs := { root := .dir [(['a'], .dir [] 511 0)] 511 0, now := 0 }

/-- A root holding the read-only folder `ro` (mode 0555). -/
def readOnlyFs : Fs := { root := .dir [(['r', 'o'], .dir [] 365 0)] 511 0, now := 0 }

/-- A root holding the folder `a`, whose sidecar cannot be read (mode 0). -/
def lockedSidecarFs : Fs :=
  { root := .dir [(['a'], .dir [(PYDIO_SYNC_HIDDEN_FILE_META, .file "u0" 0 0)] 511 0)] 511 0,
    now := 0 }

/-- A root holding the file `.DS_Store` and the folder `a`, in which a write is staged
under the temporary name `.tmp.write.b`. -/
def dsStoreFs : Fs :=
  { root := .dir [(".DS_Store".toList, .file "x" 420 0),
                  (['a'], .dir [(".tmp.write.b".toList, .file "y" 420 0)] 511 0)] 511 0,
    now := 0 }

/-- A root holding the folder `a` with the folder `b`, itself holding the file `d`, and
the file `c`, next to the empty folder `z`. -/
def moveTargetFs : Fs :=
  { root := .dir [(['a'], .dir [(['b'], .dir [(['d'], .file "x" 420 0)] 511 0),
                                (['c'], .file "y" 420 0)] 511 0),
                  (['z'], .dir [] 511 0)] 511 0,
    now := 0 }

/-- A generator for the samples: the uuid number `k` is `k` letters long. -/
def sampleUuid (k : Nat) : String := String.mk ('u' :: List.replicate k 'x')

/-- A collection node with the given path and uuid. -/
def collection (path : List Char) (uuid : String) : Node :=
  { Path := path, Type_ := .COLLECTION, Uuid := uuid, Etag := "", MTime := 0, Size := 0,
    Mode := 0 }

/-- A host of the third platform branch, with the normalisation forms left as the identity
(no branch other than darwin calls them). -/
def linuxHost : Host := { goos := .other, NFC := id, NFD := id }

/-- A two-rule excerpt of canonical decomposition: U+00E9 becomes e followed by U+0301. -/
def sampleNFD : List Char → List Char
  | [] => []
  | c :: cs => if c = '\u00e9' then 'e' :: '\u0301' :: sampleNFD cs else c :: sampleNFD cs

/-- The matching excerpt of canonical composition. -/
def sampleNFC : List Char → List Char
  | [] => []
  | [c] => [c]
  | c :: d :: cs =>
    if c = 'e' ∧ d = '\u0301' then '\u00e9' :: sampleNFC cs else c :: sampleNFC (d :: cs)

/-- A macOS host whose normalisation forms are the excerpts above. -/
def darwinHost : Host := { goos := .darwin, NFC := sampleNFC, NFD := sampleNFD }

/-! # Theorems -/

/-! ## Path normaliser -/

theorem replaceAux_single (a b : Char) (s : List Char) :
    replaceAux [a] [b] s 0 = s.map (fun c => if c = a then b else c) := by
  induction s with
  | nil => rfl
  | cons c cs ih =>
    by_cases hc : c = a
    · subst hc
      simp [replaceAux, List.isPrefixOf, ih]
    · have hc2 : ¬ a = c := fun h => hc h.symm
      simp [replaceAux, List.isPrefixOf, ih, hc, hc2]

theorem Replace_single (a b : Char) (s : List Char) :
    Replace s [a] [b] = s.map (fun c => if c = a then b else c) :=
  replaceAux_single a b s

/-- Replacing `a` by `b` and then `b` by `a` gives the string back when it has no `b`. -/
theorem map_swap_back (a b : Char) (s : List Char) (hb : b ∉ s) :
    (s.map (fun c => if c = a then b else c)).map (fun c => if c = b then a else c) = s := by
  induction s with
  | nil => rfl
  | cons c cs ih =>
    have hcb : ¬ c = b := fun h => hb (by simp [h])
    have hcs : b ∉ cs := fun h => hb (by simp [h])
    by_cases hc : c = a
    · simp [hc, ih hcs]
    · simp [hc, hcb, ih hcs]

/-! ## Path resolution -/

theorem IsPathSeparator_PathSeparator (goos : Goos) :
    IsPathSeparator goos (PathSeparator goos) = true := by
  cases goos <;> decide

theorem splitPath_ne_nil (goos : Goos) (p : List Char) : splitPath goos p ≠ [] := by
  cases p with
  | nil => simp [splitPath]
  | cons c cs =>
    unfold splitPath
    split
    · simp
    · split <;> simp

theorem splitPath_append_sep (goos : Goos) (p q : List Char) (c : Char)
    (hc : IsPathSeparator goos c = true) :
    splitPath goos (p ++ c :: q) = splitPath goos p ++ splitPath goos q := by
  induction p with
  | nil => simp [splitPath, hc]
  | cons a p ih =>
    simp only [List.cons_append, splitPath]
    by_cases ha : IsPathSeparator goos a = true
    · simp [ha, ih]
    · simp only [ha, ih]
      cases hsp : splitPath goos p with
      | nil => exact absurd hsp (splitPath_ne_nil goos p)
      | cons w ws => simp [ih, hsp]

theorem splitPath_sepFree (goos : Goos) (w : List Char)
    (h : ∀ ch ∈ w, IsPathSeparator goos ch = false) : splitPath goos w = [w] := by
  induction w with
  | nil => rfl
  | cons a w ih =>
    have ha : IsPathSeparator goos a = false := h a (by simp)
    have hw := ih (fun ch hch => h ch (by simp [hch]))
    simp [splitPath, ha, hw]

theorem mem_splitPath_sepFree (goos : Goos) (p : List Char) :
    ∀ w ∈ splitPath goos p, ∀ ch ∈ w, IsPathSeparator goos ch = false := by
  induction p with
  | nil =>
    intro w hw ch hch
    simp [splitPath] at hw
    subst hw
    simp at hch
  | cons a p ih =>
    intro w hw ch hch
    unfold splitPath at hw
    by_cases ha : IsPathSeparator goos a = true
    · simp only [ha, if_true, List.mem_cons] at hw
      rcases hw with hw | hw
      · subst hw
        simp at hch
      · exact ih w hw ch hch
    · simp only [ha] at hw
      cases hsp : splitPath goos p with
      | nil => exact absurd hsp (splitPath_ne_nil goos p)
      | cons w0 ws =>
        rw [hsp] at hw ih
        simp only [Bool.false_eq_true, if_false, List.mem_cons] at hw
        rcases hw with hw | hw
        · subst hw
          rcases List.mem_cons.mp hch with e | e
          · subst e
            simpa using ha
          · exact ih w0 (by simp) ch e
        · exact ih w (by simp [hw]) ch hch

theorem cleanStack_append (rooted : Bool) (xs ys acc : List (List Char)) :
    cleanStack rooted (xs ++ ys) acc = cleanStack rooted ys (cleanStack rooted xs acc) := by
  induction xs generalizing acc with
  | nil => rfl
  | cons comp rest ih =>
    simp only [List.cons_append, cleanStack]
    split
    · exact ih acc
    · split
      · cases acc with
        | nil => cases rooted <;> simp [ih]
        | cons top below =>
          simp only
          split
          · exact ih _
          · exact ih _
      · exact ih _

theorem realPathStack_append (xs ys acc r : List (List Char))
    (h : realPathStack xs acc = some r) :
    realPathStack (xs ++ ys) acc = realPathStack ys r.reverse := by
  induction xs generalizing acc with
  | nil =>
    simp only [realPathStack, Option.some.injEq] at h
    subst h
    simp
  | cons comp rest ih =>
    simp only [List.cons_append, realPathStack] at h ⊢
    split
    · rename_i h1
      simp only [h1, if_true] at h
      exact ih acc h
    · rename_i h1
      simp only [h1, if_false] at h
      split
      · rename_i h2
        simp only [h2, if_true] at h
        cases acc with
        | nil => simp at h
        | cons top below => exact ih below h
      · rename_i h2
        simp only [h2, if_false] at h
        exact ih _ h

theorem cleanStack_of_realPathStack (rooted : Bool) (xs acc r : List (List Char))
    (h : realPathStack xs acc = some r) (hacc : ∀ a ∈ acc, a ≠ ['.', '.']) :
    cleanStack rooted xs acc = r.reverse := by
  induction xs generalizing acc with
  | nil =>
    simp only [realPathStack, Option.some.injEq] at h
    subst h
    simp [cleanStack]
  | cons comp rest ih =>
    simp only [realPathStack] at h
    simp only [cleanStack]
    split
    · rename_i h1
      simp only [h1, if_true] at h
      exact ih acc h hacc
    · rename_i h1
      simp only [h1, if_false] at h
      split
      · rename_i h2
        simp only [h2, if_true] at h
        cases acc with
        | nil => simp at h
        | cons top below =>
          have htop : top ≠ ['.', '.'] := hacc top (by simp)
          simp only [htop, if_false]
          exact ih below h (fun a ha => hacc a (by simp [ha]))
      · rename_i h2
        simp only [h2, if_false] at h
        refine ih _ h ?_
        intro a ha
        rcases List.mem_cons.mp ha with e | e
        · subst e
          exact h2
        · exact hacc a e

theorem realPathStack_plain (goos : Goos) (xs acc r : List (List Char))
    (h : realPathStack xs acc = some r) (hacc : ∀ a ∈ acc, plainComp goos a)
    (hxs : ∀ x ∈ xs, ∀ ch ∈ x, IsPathSeparator goos ch = false) :
    ∀ a ∈ r, plainComp goos a := by
  induction xs generalizing acc with
  | nil =>
    simp only [realPathStack, Option.some.injEq] at h
    subst h
    intro a ha
    exact hacc a (by simpa using ha)
  | cons comp rest ih =>
    have hrest : ∀ x ∈ rest, ∀ ch ∈ x, IsPathSeparator goos ch = false :=
      fun x hx => hxs x (by simp [hx])
    simp only [realPathStack] at h
    by_cases h1 : comp = [] ∨ comp = ['.']
    · simp only [h1, if_true] at h
      exact ih acc h hacc hrest
    · simp only [h1, if_false] at h
      by_cases h2 : comp = ['.', '.']
      · simp only [h2, if_true] at h
        cases acc with
        | nil => simp at h
        | cons top below => exact ih below h (fun a ha => hacc a (by simp [ha])) hrest
      · simp only [h2, if_false] at h
        refine ih _ h ?_ hrest
        intro a ha
        rcases List.mem_cons.mp ha with e | e
        · subst e
          exact ⟨fun e0 => h1 (Or.inl e0), fun e0 => h1 (Or.inr e0), h2, hxs a (by simp)⟩
        · exact hacc a e

theorem realPathStack_of_plain (goos : Goos) (comps acc : List (List Char))
    (h : ∀ a ∈ comps, plainComp goos a) :
    realPathStack comps acc = some (acc.reverse ++ comps) := by
  induction comps generalizing acc with
  | nil => simp [realPathStack]
  | cons comp rest ih =>
    obtain ⟨p1, p2, p3, _⟩ := h comp (by simp)
    have h1 : ¬ (comp = [] ∨ comp = ['.']) := fun e => e.elim p1 p2
    simp only [realPathStack, h1, p3, if_false]
    rw [ih (comp :: acc) (fun a ha => h a (by simp [ha]))]
    simp

theorem splitPath_joinComponents (goos : Goos) (comps : List (List Char)) (hne : comps ≠ [])
    (h : ∀ w ∈ comps, ∀ ch ∈ w, IsPathSeparator goos ch = false) :
    splitPath goos (joinComponents (PathSeparator goos) comps) = comps := by
  induction comps with
  | nil => exact absurd rfl hne
  | cons c rest ih =>
    cases rest with
    | nil => simpa [joinComponents] using splitPath_sepFree goos c (h c (by simp))
    | cons d rest =>
      simp only [joinComponents]
      rw [splitPath_append_sep goos _ _ _ (IsPathSeparator_PathSeparator goos),
        splitPath_sepFree goos c (h c (by simp)),
        ih (by simp) (fun w hw => h w (by simp [hw]))]
      rfl

theorem joinComponents_eq_nil (sep : Char) (comps : List (List Char))
    (h : joinComponents sep comps = []) (hne : ∀ w ∈ comps, w ≠ []) : comps = [] := by
  cases comps with
  | nil => rfl
  | cons c rest =>
    exfalso
    have hc : c ≠ [] := hne c (by simp)
    cases rest with
    | nil => exact hc (by simpa [joinComponents] using h)
    | cons d rest => simp [joinComponents] at h

/-- Cleaning a name does not change the entry it denotes. -/
theorem RealPath_Clean (goos : Goos) (x : List Char) (r : List (List Char))
    (h : RealPath goos x = some r) : RealPath goos (Clean goos x) = some r := by
  have hplain : ∀ a ∈ r, plainComp goos a :=
    realPathStack_plain goos _ [] r h (by simp) (mem_splitPath_sepFree goos x)
  have hsep : ∀ a ∈ r, ∀ ch ∈ a, IsPathSeparator goos ch = false := fun a ha => (hplain a ha).2.2.2
  have hstack : ∀ rooted, (cleanStack rooted (splitPath goos x) []).reverse = r := by
    intro rooted
    rw [cleanStack_of_realPathStack rooted _ [] r h (by simp)]
    simp
  have hr : realPathStack r [] = some r := by
    simpa using realPathStack_of_plain goos r [] hplain
  cases x with
  | nil =>
    have : r = [] := by
      simp [RealPath, splitPath, realPathStack] at h
      exact h
    subst this
    simp [Clean, RealPath, splitPath, realPathStack, IsPathSeparator]
  | cons c cs =>
    simp only [Clean, hstack]
    by_cases hroot : IsPathSeparator goos c = true
    · simp only [hroot, if_true]
      unfold RealPath
      have hsp : splitPath goos (PathSeparator goos :: joinComponents (PathSeparator goos) r) =
          [] :: splitPath goos (joinComponents (PathSeparator goos) r) := by
        simp [splitPath, IsPathSeparator_PathSeparator]
      rw [hsp]
      by_cases hnil : r = []
      · subst hnil
        simp [joinComponents, splitPath, realPathStack]
      · rw [splitPath_joinComponents goos r hnil hsep]
        simpa [realPathStack] using hr
    · simp only [hroot]
      by_cases hb : joinComponents (PathSeparator goos) r = []
      · have hnil : r = [] := joinComponents_eq_nil _ r hb (fun w hw => (hplain w hw).1)
        subst hnil
        simp [joinComponents, RealPath, splitPath, realPathStack, IsPathSeparator]
      · have hnil : r ≠ [] := by
          intro e
          subst e
          exact hb rfl
        simp only [Bool.false_eq_true, if_false, hb]
        unfold RealPath
        rw [splitPath_joinComponents goos r hnil hsep]
        exact hr

/-- The name of an entry inside a directory resolves below the directory. -/
theorem RealPath_Join (goos : Goos) (p m : List Char) (cs : List (List Char))
    (h : RealPath goos p = some cs) (hm : plainComp goos m) :
    RealPath goos (Join goos p m) = some (cs ++ [m]) := by
  obtain ⟨m1, m2, m3, m4⟩ := hm
  have hone : realPathStack [m] cs.reverse = some (cs ++ [m]) := by
    have h1 : ¬ (m = [] ∨ m = ['.']) := fun e => e.elim m1 m2
    simp [realPathStack, h1, m3]
  unfold Join
  by_cases hp : p = []
  · subst hp
    have hcs : cs = [] := by
      simp [RealPath, splitPath, realPathStack] at h
      exact h
    subst hcs
    simp only [if_true, m1, if_false]
    apply RealPath_Clean
    unfold RealPath
    rw [splitPath_sepFree goos m m4]
    simpa using hone
  · simp only [hp, m1, if_false]
    apply RealPath_Clean
    unfold RealPath
    rw [splitPath_append_sep goos p m _ (IsPathSeparator_PathSeparator goos),
      splitPath_sepFree goos m m4, realPathStack_append _ _ _ _ h]
    exact hone

theorem plainComp_sidecar (goos : Goos) : plainComp goos PYDIO_SYNC_HIDDEN_FILE_META := by
  refine ⟨by decide, by decide, by decide, ?_⟩
  cases goos <;> decide

/-! ## The tree of entries -/

theorem lookupChild_setChild_same (n : List Char) (e : Entry) (cs : List (List Char × Entry)) :
    lookupChild n (setChild n e cs) = some e := by
  induction cs with
  | nil => simp [setChild, lookupChild]
  | cons kv rest ih =>
    obtain ⟨k, v⟩ := kv
    by_cases hk : k = n
    · simp [setChild, lookupChild, hk]
    · simp [setChild, lookupChild, hk, ih]

theorem lookupChild_setChild_ne (k n : List Char) (e : Entry) (cs : List (List Char × Entry))
    (h : k ≠ n) : lookupChild k (setChild n e cs) = lookupChild k cs := by
  induction cs with
  | nil =>
    have h2 : ¬ n = k := fun e0 => h e0.symm
    simp [setChild, lookupChild, h2]
  | cons kv rest ih =>
    obtain ⟨k2, v⟩ := kv
    by_cases hk : k2 = n
    · subst hk
      have h2 : ¬ k2 = k := fun e0 => h e0.symm
      simp [setChild, lookupChild, h2]
    · by_cases hk2 : k2 = k
      · subst hk2
        simp [setChild, lookupChild, hk]
      · simp [setChild, lookupChild, hk, hk2, ih]

theorem setChild_of_lookup_none (n : List Char) (e : Entry) (cs : List (List Char × Entry))
    (h : lookupChild n cs = none) : setChild n e cs = cs ++ [(n, e)] := by
  induction cs with
  | nil => rfl
  | cons kv rest ih =>
    obtain ⟨k, v⟩ := kv
    by_cases hk : k = n
    · simp [lookupChild, hk] at h
    · simp only [lookupChild, hk, if_false] at h
      simp [setChild, hk, ih h]

theorem eraseChild_append_single (n : List Char) (x : Entry) (cs : List (List Char × Entry))
    (h : lookupChild n cs = none) : eraseChild n (cs ++ [(n, x)]) = cs := by
  induction cs with
  | nil => simp [eraseChild]
  | cons kv rest ih =>
    obtain ⟨k, v⟩ := kv
    by_cases hk : k = n
    · simp [lookupChild, hk] at h
    · simp only [lookupChild, hk, if_false] at h
      simp [eraseChild, hk, ih h]

theorem lookupChild_append_single (n : List Char) (x : Entry) (cs : List (List Char × Entry))
    (h : lookupChild n cs = none) : lookupChild n (cs ++ [(n, x)]) = some x := by
  rw [← setChild_of_lookup_none n x cs h]
  exact lookupChild_setChild_same n x cs

theorem setChild_setChild_back (n : List Char) (c c2 : Entry) (cs : List (List Char × Entry))
    (h : lookupChild n cs = some c) : setChild n c (setChild n c2 cs) = cs := by
  induction cs with
  | nil => simp [lookupChild] at h
  | cons kv rest ih =>
    obtain ⟨k, v⟩ := kv
    by_cases hk : k = n
    · simp only [lookupChild, hk, if_true, Option.some.injEq] at h
      simp [setChild, hk, h]
    · simp only [lookupChild, hk, if_false] at h
      simp [setChild, hk, ih h]

theorem Entry.get_append (p q : List (List Char)) (e d : Entry) (h : e.get p = .ok d) :
    e.get (p ++ q) = d.get q := by
  induction p generalizing e with
  | nil =>
    simp only [Entry.get, Except.ok.injEq] at h
    subst h
    rfl
  | cons n rest ih =>
    cases e with
    | file content m t => simp [Entry.get] at h
    | dir cs m t =>
      simp only [Entry.get, List.cons_append] at h ⊢
      cases hl : lookupChild n cs with
      | none => simp [hl] at h
      | some c =>
        simp only [hl] at h ⊢
        exact ih c h

/-- A directory made by `mkdirAll` from nothing is empty and carries the mode asked for. -/
theorem mkdirAll_fresh (perm : Nat) (now : Int) (rest : List (List Char)) (c2 : Entry)
    (h : Entry.mkdirAll perm now (.dir [] perm now) rest = .ok c2) :
    c2.get rest = .ok (.dir [] perm now) := by
  induction rest generalizing c2 with
  | nil =>
    simp only [Entry.mkdirAll, Except.ok.injEq] at h
    subst h
    rfl
  | cons k rest ih =>
    simp only [Entry.mkdirAll, lookupChild] at h
    by_cases hw : canWrite perm = true
    · simp only [hw, if_true] at h
      cases hm : Entry.mkdirAll perm now (.dir [] perm now) rest with
      | error e => simp [hm] at h
      | ok c3 =>
        simp only [hm, Except.ok.injEq] at h
        subst h
        simp only [Entry.get, setChild, lookupChild, if_true]
        exact ih c3 hm
    · simp [hw] at h

/-- After `mkdirAll` on a path that did not exist, the path is an empty directory with the
mode asked for. -/
theorem mkdirAll_get (perm : Nat) (now : Int) (p : List (List Char)) (e e2 : Entry)
    (hnew : e.get p = .error .notExist) (h : Entry.mkdirAll perm now e p = .ok e2) :
    e2.get p = .ok (.dir [] perm now) := by
  induction p generalizing e e2 with
  | nil => simp [Entry.get] at hnew
  | cons n rest ih =>
    cases e with
    | file content m t => simp [Entry.get] at hnew
    | dir cs m t =>
      simp only [Entry.get] at hnew
      simp only [Entry.mkdirAll] at h
      cases hl : lookupChild n cs with
      | none =>
        simp only [hl] at h
        by_cases hw : canWrite m = true
        · simp only [hw, if_true] at h
          cases hm : Entry.mkdirAll perm now (.dir [] perm now) rest with
          | error err => simp [hm] at h
          | ok c3 =>
            simp only [hm, Except.ok.injEq] at h
            subst h
            simp only [Entry.get, lookupChild_setChild_same]
            exact mkdirAll_fresh perm now rest c3 hm
        · simp [hw] at h
      | some c =>
        simp only [hl] at h hnew
        cases hm : Entry.mkdirAll perm now c rest with
        | error err => simp [hm] at h
        | ok c3 =>
          simp only [hm, Except.ok.injEq] at h
          subst h
          simp only [Entry.get, lookupChild_setChild_same]
          exact ih c c3 hnew hm

/-- Writing a new file into an empty writable directory succeeds; the directory then holds
that file only. -/
theorem writeFile_into_empty (data : String) (perm : Nat) (now : Int) (n : List Char)
    (p : List (List Char)) (e : Entry) (m : Nat) (t : Int)
    (hdir : e.get p = .ok (.dir [] m t)) (hw : canWrite m = true) :
    ∃ e2, Entry.writeFile data perm now e (p ++ [n]) = .ok e2 ∧
      e2.get p = .ok (.dir [(n, .file data perm now)] m t) := by
  induction p generalizing e with
  | nil =>
    simp only [Entry.get, Except.ok.injEq] at hdir
    subst hdir
    exact ⟨.dir [(n, .file data perm now)] m t,
      by simp [Entry.writeFile, lookupChild, hw, setChild], rfl⟩
  | cons k rest ih =>
    cases e with
    | file content m2 t2 => simp [Entry.get] at hdir
    | dir cs m2 t2 =>
      simp only [Entry.get] at hdir
      cases hl : lookupChild k cs with
      | none => simp [hl] at hdir
      | some c =>
        simp only [hl] at hdir
        obtain ⟨c2, hc2, hget⟩ := ih c hdir
        refine ⟨.dir (setChild k c2 cs) m2 t2, ?_, ?_⟩
        · cases hrest : rest ++ [n] with
          | nil => simp at hrest
          | cons r rs =>
            rw [hrest] at hc2
            simp only [List.cons_append, hrest, Entry.writeFile, hl, hc2]
        · simp only [Entry.get, lookupChild_setChild_same]
          exact hget

/-- C1, as stated, fails: on the third platform branch `denormalize` is the identity and
`normalize` strips the leading separator, so the path `/a` comes back as `a`. -/
theorem normalize_denormalize_leading_slash :
    normalize linuxHost (denormalize linuxHost ['/', 'a']) = ['a'] ∧
    normalize linuxHost (denormalize linuxHost ['/', 'a']) ≠ ['/', 'a'] := by
  decide

/-- C1, amended: for a path `P` in engine form (no leading `/`), `normalize (denormalize P) = P`
on every platform branch, where on Windows `P` holds no backslash and on macOS `P` is NFC
(composing its decomposition gives `P` back) and decomposition keeps the prepended `/`
as the only leading separator. -/
theorem normalize_denormalize (h : Host) (P : List Char)
    (hP : TrimLeft P ['/'] = P)
    (hwin : h.goos = .windows → '\\' ∉ P)
    (hmac : h.goos = .darwin →
      h.NFD ('/' :: P) = '/' :: h.NFD P ∧ TrimLeft (h.NFD P) ['/'] = h.NFD P ∧
        h.NFC (h.NFD P) = P) :
    normalize h (denormalize h P) = P := by
  cases hg : h.goos with
  | darwin =>
    obtain ⟨h1, h2, h3⟩ := hmac hg
    have h4 : TrimLeft ('/' :: h.NFD P) ['/'] = TrimLeft (h.NFD P) ['/'] := by
      simp [TrimLeft, List.dropWhile]
    simp [normalize, denormalize, hg, PathSeparator, InternalPathSeparator, hP, h1, h4, h2, h3]
  | windows =>
    have hb := hwin hg
    have hmap : ∀ s : List Char, '\\' ∉ s → TrimLeft s ['/'] = s →
        TrimLeft (s.map (fun c => if c = '/' then '\\' else c)) ['\\'] =
          s.map (fun c => if c = '/' then '\\' else c) := by
      intro s hs ht
      cases s with
      | nil => rfl
      | cons c cs =>
        have hc1 : c ≠ '\\' := fun e => hs (by simp [e])
        have hc2 : c ≠ '/' := by
          intro e
          subst e
          have hlen := congrArg List.length ht
          have hle : ∀ p : Char → Bool, (List.dropWhile p cs).length ≤ cs.length :=
            fun p => (List.dropWhile_sublist p).length_le
          simp [TrimLeft, List.dropWhile] at hlen
          have hle2 := hle (fun c => decide (c = '/'))
          omega
        simp [TrimLeft, List.dropWhile, hc1, hc2]
    simp only [normalize, denormalize, hg, PathSeparator, InternalPathSeparator, Replace_single]
    simp only [reduceCtorEq, if_false, if_true]
    rw [hmap P hb hP]
    exact map_swap_back '/' '\\' P hb
  | other =>
    simp [normalize, denormalize, hg, PathSeparator, hP]

/-- C1, amended, at `café` on macOS, whose native form is the decomposed `/café`. -/
theorem normalize_denormalize_witness :
    denormalize darwinHost ['c', 'a', 'f', '\u00e9'] = ['/', 'c', 'a', 'f', 'e', '\u0301'] ∧
    normalize darwinHost (denormalize darwinHost ['c', 'a', 'f', '\u00e9']) =
      ['c', 'a', 'f', '\u00e9'] :=
  ⟨by decide,
   normalize_denormalize darwinHost ['c', 'a', 'f', '\u00e9'] (by decide) (by decide)
     (fun _ => ⟨by decide, by decide, by decide⟩)⟩

/-! ## Creating and loading a folder -/

/-- C2, as stated, fails: `CreateNode` touches the filesystem only when the path does not
exist. On a directory `a` whose sidecar holds `u0`, creating the collection `a` with uuid
`u1` returns no error and changes nothing, and `LoadNode` still answers `u0`. -/
theorem CreateNode_existing_keeps_uuid :
    (CreateNode (linuxClient false) existingFolderFs (collection ['a'] "u1") true).err = none ∧
    (LoadNode (linuxClient false)
      (CreateNode (linuxClient false) existingFolderFs (collection ['a'] "u1") true).fs
      ['a'] "fresh").2 = .ok { collection ['a'] "u0" with Mode := 511 } ∧
    ¬ ∃ n, (LoadNode (linuxClient false)
      (CreateNode (linuxClient false) existingFolderFs (collection ['a'] "u1") true).fs
      ['a'] "fresh").2 = .ok n ∧ n.Uuid = "u1" := by
  have hload : (LoadNode (linuxClient false)
      (CreateNode (linuxClient false) existingFolderFs (collection ['a'] "u1") true).fs
      ['a'] "fresh").2 = .ok { collection ['a'] "u0" with Mode := 511 } := by decide
  refine ⟨by decide, hload, ?_⟩
  rintro ⟨n, hn, hu⟩
  rw [hload] at hn
  cases hn
  exact absurd hu (by decide)

/-- C2, amended: when the path of a collection node with a non-empty uuid does not exist
yet (stat reports not-found) and the endpoint is not browse-only, then after `CreateNode`
returns without error `LoadNode` of that path returns a collection node with the uuid of
the node. -/
theorem CreateNode_then_LoadNode (c : FSClient) (fs : Fs) (node : Node) (updateIfExists : Bool)
    (fresh : String)
    (hcoll : node.Type_ = .COLLECTION) (hU : node.Uuid ≠ "")
    (hB : c.options.BrowseOnly = false)
    (hnew : Fs.Stat c.host.goos fs (denormalize c.host node.Path) = .error .notExist)
    (hok : (CreateNode c fs node updateIfExists).err = none) :
    ∃ n, (LoadNode c (CreateNode c fs node updateIfExists).fs node.Path fresh).2 = .ok n ∧
      n.Type_ = .COLLECTION ∧ n.Uuid = node.Uuid ∧ n.Path = node.Path := by
  have hleaf : node.IsLeaf = false := by simp [Node.IsLeaf, hcoll]
  cases hrp : RealPath c.host.goos (denormalize c.host node.Path) with
  | none =>
    simp [CreateNode, hleaf, hnew, errOf, IsNotExist, Fs.MkdirAll, hrp] at hok
  | some p =>
    have hget : fs.root.get p = .error .notExist := by
      simp only [Fs.Stat, hrp] at hnew
      cases hg : fs.root.get p with
      | ok e => simp [hg] at hnew
      | error err =>
        simp only [hg, Except.error.injEq] at hnew
        rw [hnew]
    cases hmk : Entry.mkdirAll 511 fs.now fs.root p with
    | error err =>
      simp [CreateNode, hleaf, hnew, errOf, IsNotExist, Fs.MkdirAll, hrp, hmk] at hok
    | ok r1 =>
      have hdir := mkdirAll_get 511 fs.now p fs.root r1 hget hmk
      obtain ⟨r2, hwr, hdir2⟩ := writeFile_into_empty node.Uuid 511 fs.now
        PYDIO_SYNC_HIDDEN_FILE_META p r1 511 fs.now hdir (by decide)
      have hside := RealPath_Join c.host.goos (denormalize c.host node.Path)
        PYDIO_SYNC_HIDDEN_FILE_META p hrp (plainComp_sidecar c.host.goos)
      have hfile : r2.get (p ++ [PYDIO_SYNC_HIDDEN_FILE_META]) =
          .ok (.file node.Uuid 511 fs.now) := by
        rw [Entry.get_append p _ r2 _ hdir2]
        simp [Entry.get, lookupChild]
      have hfs : (CreateNode c fs node updateIfExists).fs = { root := r2, now := fs.now } := by
        simp [CreateNode, hleaf, hnew, errOf, IsNotExist, Fs.MkdirAll, hrp, hmk, hU, hB,
          Fs.WriteFile, hside, hwr]
      rw [hfs]
      have hread : canRead 511 = true := by decide
      refine ⟨{ Path := node.Path, Type_ := .COLLECTION, Uuid := node.Uuid, Etag := "",
                MTime := fs.now, Size := 0, Mode := 511 }, ?_, rfl, rfl, rfl⟩
      simp [LoadNode, loadNode, Fs.Stat, hrp, hdir2, Entry.info, loadNodeStat,
        readOrCreateFolderId, hB, Fs.Open, hside, hfile, Entry.mode, hread, Fs.ReadFile,
        readAll]

/-- C2, amended, on the empty root: creating `a` with uuid `u1` and loading it. -/
theorem CreateNode_then_LoadNode_witness :
    ∃ n, (LoadNode (linuxClient false)
        (CreateNode (linuxClient false) emptyFs (collection ['a'] "u1") false).fs
        (collection ['a'] "u1").Path "fresh").2 = .ok n ∧
      n.Type_ = .COLLECTION ∧ n.Uuid = (collection ['a'] "u1").Uuid ∧
      n.Path = (collection ['a'] "u1").Path :=
  CreateNode_then_LoadNode (linuxClient false) emptyFs (collection ['a'] "u1") false "fresh"
    rfl (by decide) rfl rfl (by decide)

/-! ## Loading a folder twice -/

/-- A file written where nothing was is there afterwards, with the mode asked for. -/
theorem writeFile_get_new (data : String) (perm : Nat) (now : Int) (q : List (List Char))
    (e e2 : Entry) (hnew : e.get q = .error .notExist)
    (h : Entry.writeFile data perm now e q = .ok e2) :
    e2.get q = .ok (.file data perm now) := by
  induction q generalizing e e2 with
  | nil => simp [Entry.get] at hnew
  | cons n rest ih =>
    cases e with
    | file content m t => simp [Entry.get] at hnew
    | dir cs m t =>
      simp only [Entry.get] at hnew
      cases rest with
      | nil =>
        simp only [Entry.writeFile] at h
        cases hl : lookupChild n cs with
        | some c => simp [hl, Entry.get] at hnew
        | none =>
          simp only [hl] at h
          by_cases hw : canWrite m = true
          · simp only [hw, if_true, Except.ok.injEq] at h
            subst h
            simp [Entry.get, lookupChild_setChild_same]
          · simp [hw] at h
      | cons r rs =>
        simp only [Entry.writeFile] at h
        cases hl : lookupChild n cs with
        | none => simp [hl] at h
        | some c =>
          simp only [hl] at h hnew
          cases hwr : Entry.writeFile data perm now c (r :: rs) with
          | error err => simp [hwr] at h
          | ok c2 =>
            simp only [hwr, Except.ok.injEq] at h
            subst h
            simp only [Entry.get, lookupChild_setChild_same]
            exact ih c c2 hnew hwr

/-- Writing a file leaves every directory a directory, with its mode and time. -/
theorem writeFile_keeps_dir (data : String) (perm : Nat) (now : Int)
    (p q : List (List Char)) (e e2 : Entry) (ch : List (List Char × Entry)) (m : Nat) (t : Int)
    (hdir : e.get p = .ok (.dir ch m t))
    (h : Entry.writeFile data perm now e q = .ok e2) :
    ∃ ch2, e2.get p = .ok (.dir ch2 m t) := by
  induction p generalizing e e2 q with
  | nil =>
    simp only [Entry.get, Except.ok.injEq] at hdir
    subst hdir
    cases q with
    | nil => simp [Entry.writeFile] at h
    | cons n rest =>
      cases rest with
      | nil =>
        simp only [Entry.writeFile] at h
        cases hl : lookupChild n ch with
        | none =>
          simp only [hl] at h
          by_cases hw : canWrite m = true
          · simp only [hw, if_true, Except.ok.injEq] at h
            subst h
            exact ⟨_, rfl⟩
          · simp [hw] at h
        | some c =>
          cases c with
          | dir ch3 m3 t3 => simp [hl] at h
          | file content fm ft =>
            simp only [hl] at h
            by_cases hw : canWrite fm = true
            · simp only [hw, if_true, Except.ok.injEq] at h
              subst h
              exact ⟨_, rfl⟩
            · simp [hw] at h
      | cons r rs =>
        simp only [Entry.writeFile] at h
        cases hl : lookupChild n ch with
        | none => simp [hl] at h
        | some c =>
          simp only [hl] at h
          cases hwr : Entry.writeFile data perm now c (r :: rs) with
          | error err => simp [hwr] at h
          | ok c2 =>
            simp only [hwr, Except.ok.injEq] at h
            subst h
            exact ⟨_, rfl⟩
  | cons k rest ih =>
    cases e with
    | file content m0 t0 => simp [Entry.get] at hdir
    | dir cs m0 t0 =>
      simp only [Entry.get] at hdir
      cases hk : lookupChild k cs with
      | none => simp [hk] at hdir
      | some c =>
        simp only [hk] at hdir
        cases q with
        | nil => simp [Entry.writeFile] at h
        | cons n qs =>
          by_cases hkn : k = n
          · subst hkn
            cases qs with
            | nil =>
              simp only [Entry.writeFile, hk] at h
              cases c with
              | dir ch3 m3 t3 => simp at h
              | file content fm ft =>
                cases rest with
                | nil => simp [Entry.get] at hdir
                | cons r2 rs2 => simp [Entry.get] at hdir
            | cons r rs =>
              simp only [Entry.writeFile, hk] at h
              cases hwr : Entry.writeFile data perm now c (r :: rs) with
              | error err => simp [hwr] at h
              | ok c2 =>
                simp only [hwr, Except.ok.injEq] at h
                subst h
                simp only [Entry.get, lookupChild_setChild_same]
                exact ih (r :: rs) c c2 hdir hwr
          · have hother : ∀ x, (Entry.dir (setChild n x cs) m0 t0).get (k :: rest) =
                .ok (.dir ch m t) := by
              intro x
              simp only [Entry.get, lookupChild_setChild_ne k n x cs hkn, hk]
              exact hdir
            cases qs with
            | nil =>
              simp only [Entry.writeFile] at h
              cases hl : lookupChild n cs with
              | none =>
                simp only [hl] at h
                by_cases hw : canWrite m0 = true
                · simp only [hw, if_true, Except.ok.injEq] at h
                  subst h
                  exact ⟨ch, hother _⟩
                · simp [hw] at h
              | some c3 =>
                cases c3 with
                | dir ch3 m3 t3 => simp [hl] at h
                | file content fm ft =>
                  simp only [hl] at h
                  by_cases hw : canWrite fm = true
                  · simp only [hw, if_true, Except.ok.injEq] at h
                    subst h
                    exact ⟨ch, hother _⟩
                  · simp [hw] at h
            | cons r rs =>
              simp only [Entry.writeFile] at h
              cases hl : lookupChild n cs with
              | none => simp [hl] at h
              | some c3 =>
                simp only [hl] at h
                cases hwr : Entry.writeFile data perm now c3 (r :: rs) with
                | error err => simp [hwr] at h
                | ok c2 =>
                  simp only [hwr, Except.ok.injEq] at h
                  subst h
                  exact ⟨ch, hother _⟩

theorem readOrCreateFolderId_twice (c : FSClient) (fs : Fs) (path : List Char)
    (fresh1 fresh2 id : String) (hB : c.options.BrowseOnly = false)
    (h : (readOrCreateFolderId c fs path fresh1).2 = .ok id) :
    readOrCreateFolderId c (readOrCreateFolderId c fs path fresh1).1 path fresh2 =
      ((readOrCreateFolderId c fs path fresh1).1, .ok id) := by
  have hB2 : ¬ c.options.BrowseOnly = true := by simp [hB]
  cases hopen : Fs.Open c.host.goos fs (Join c.host.goos path PYDIO_SYNC_HIDDEN_FILE_META) with
  | ok ent =>
    cases hrd : Fs.ReadFile c.host.goos fs (Join c.host.goos path PYDIO_SYNC_HIDDEN_FILE_META) with
    | error re => simp [readOrCreateFolderId, hB, hopen, hrd] at h
    | ok content =>
      simp only [readOrCreateFolderId, hB, Bool.false_eq_true, if_false, hopen, hrd,
        Outcome.ok.injEq] at h
      subst h
      simp [readOrCreateFolderId, hB, hopen, hrd]
  | error uidErr =>
    by_cases hne : IsNotExist (some uidErr) = true
    · have hu : uidErr = .notExist := by
        cases uidErr <;> simp [IsNotExist] at hne
        rfl
      subst hu
      cases hwr : Fs.WriteFile c.host.goos fs
          (Join c.host.goos path PYDIO_SYNC_HIDDEN_FILE_META) fresh1 438 with
      | error we => simp [readOrCreateFolderId, hB, hopen, hne, hwr] at h
      | ok fs2 =>
        have hfirst : readOrCreateFolderId c fs path fresh1 = (fs2, .ok fresh1) := by
          simp [readOrCreateFolderId, hB, hopen, hne, hwr]
        rw [hfirst] at h ⊢
        simp only [Outcome.ok.injEq] at h
        subst h
        cases hrp : RealPath c.host.goos (Join c.host.goos path PYDIO_SYNC_HIDDEN_FILE_META) with
        | none => simp [Fs.WriteFile, hrp] at hwr
        | some q =>
          simp only [Fs.WriteFile, hrp] at hwr
          cases hw2 : Entry.writeFile fresh1 438 fs.now fs.root q with
          | error err => simp [hw2] at hwr
          | ok r2 =>
            simp only [hw2, Except.ok.injEq] at hwr
            have hget : fs.root.get q = .error .notExist := by
              simp only [Fs.Open, hrp] at hopen
              cases hg : fs.root.get q with
              | ok e =>
                simp only [hg] at hopen
                by_cases hr : canRead e.mode = true <;> simp [hr] at hopen
              | error err =>
                simp only [hg, Except.error.injEq] at hopen
                rw [hopen]
            have hfile := writeFile_get_new fresh1 438 fs.now q fs.root r2 hget hw2
            have hread : canRead 438 = true := by decide
            have hopen2 : Fs.Open c.host.goos fs2
                (Join c.host.goos path PYDIO_SYNC_HIDDEN_FILE_META) =
                .ok (.file fresh1 438 fs.now) := by
              rw [← hwr]
              simp [Fs.Open, hrp, hfile, Entry.mode, hread]
            have hread2 : Fs.ReadFile c.host.goos fs2
                (Join c.host.goos path PYDIO_SYNC_HIDDEN_FILE_META) = .ok fresh1 := by
              simp [Fs.ReadFile, hopen2, readAll]
            simp [readOrCreateFolderId, hB, hopen2, hread2]
    · simp [readOrCreateFolderId, hB, hopen, hne] at h

theorem readOrCreateFolderId_keeps_dir (c : FSClient) (fs : Fs) (path name : List Char)
    (fresh : String) (st : FileInfo) (hst : Fs.Stat c.host.goos fs name = .ok st)
    (hd : st.IsDir = true) :
    Fs.Stat c.host.goos (readOrCreateFolderId c fs path fresh).1 name = .ok st := by
  unfold readOrCreateFolderId
  by_cases hB : c.options.BrowseOnly = true
  · simpa [hB] using hst
  · simp only [hB, if_false]
    cases hopen : Fs.Open c.host.goos fs (Join c.host.goos path PYDIO_SYNC_HIDDEN_FILE_META) with
    | ok ent =>
      simp only
      cases hrd : Fs.ReadFile c.host.goos fs
          (Join c.host.goos path PYDIO_SYNC_HIDDEN_FILE_META) <;> simpa using hst
    | error uidErr =>
      simp only
      by_cases hne : IsNotExist (some uidErr) = true
      · simp only [hne, if_true]
        cases hwr : Fs.WriteFile c.host.goos fs
            (Join c.host.goos path PYDIO_SYNC_HIDDEN_FILE_META) fresh 438 with
        | error we => simpa using hst
        | ok fs2 =>
          simp only
          cases hrp : RealPath c.host.goos
              (Join c.host.goos path PYDIO_SYNC_HIDDEN_FILE_META) with
          | none => simp [Fs.WriteFile, hrp] at hwr
          | some q =>
            simp only [Fs.WriteFile, hrp] at hwr
            cases hw2 : Entry.writeFile fresh 438 fs.now fs.root q with
            | error err => simp [hw2] at hwr
            | ok r2 =>
              simp only [hw2, Except.ok.injEq] at hwr
              subst hwr
              cases hrn : RealPath c.host.goos name with
              | none => simp [Fs.Stat, hrn] at hst
              | some pn =>
                simp only [Fs.Stat, hrn] at hst ⊢
                cases hg : fs.root.get pn with
                | error err => simp [hg] at hst
                | ok e =>
                  simp only [hg, Except.ok.injEq] at hst
                  subst hst
                  cases e with
                  | file content m t => simp [Entry.info] at hd
                  | dir ch m t =>
                    obtain ⟨ch2, hch2⟩ :=
                      writeFile_keeps_dir fresh 438 fs.now pn q fs.root r2 ch m t hg hw2
                    simp [hch2, Entry.info]
      · simpa [hne] using hst

/-- C3, as stated, fails: a browse-only endpoint takes a new uuid from the generator at
every call and never reads a sidecar, so two loads of the same folder differ in uuid as
the generator does. -/
theorem LoadNode_browse_only_fresh_uuid :
    (LoadNode browseClient existingFolderFs ['a'] "u1").2 =
      .ok { collection ['a'] "u1" with Mode := 511 } ∧
    (LoadNode browseClient (LoadNode browseClient existingFolderFs ['a'] "u1").1 ['a'] "u2").2 =
      .ok { collection ['a'] "u2" with Mode := 511 } ∧
    ({ collection ['a'] "u2" with Mode := 511 } : Node).Uuid ≠
      ({ collection ['a'] "u1" with Mode := 511 } : Node).Uuid := by
  decide

/-- C3, amended: on an endpoint that is not browse-only, when `LoadNode` of a path
succeeds, a second `LoadNode` of that path on the resulting state succeeds with the same
uuid, whatever the generator would give, and leaves the state as the first call left it. -/
theorem LoadNode_twice (c : FSClient) (fs : Fs) (d : List Char) (fresh1 fresh2 : String)
    (n1 : Node) (hB : c.options.BrowseOnly = false)
    (h1 : (LoadNode c fs d fresh1).2 = .ok n1) :
    ∃ n2, LoadNode c (LoadNode c fs d fresh1).1 d fresh2 =
        ((LoadNode c fs d fresh1).1, .ok n2) ∧ n2.Uuid = n1.Uuid := by
  unfold LoadNode loadNode at h1 ⊢
  cases hst : Fs.Stat c.host.goos fs (denormalize c.host d) with
  | error err =>
    simp only [hst] at h1
    by_cases hne : IsNotExist (some err) = true <;> simp [hne] at h1
  | ok st =>
    simp only [hst] at h1 ⊢
    by_cases hd : st.IsDir = true
    · have hkeep := readOrCreateFolderId_keeps_dir c fs (denormalize c.host d)
        (denormalize c.host d) fresh1 st hst hd
      cases hroc : readOrCreateFolderId c fs (denormalize c.host d) fresh1 with
      | mk fs2 out =>
        rw [hroc] at hkeep
        cases out with
        | error e => simp [loadNodeStat, hd, hroc] at h1
        | panic => simp [loadNodeStat, hd, hroc] at h1
        | ok id =>
          have htw := readOrCreateFolderId_twice c fs (denormalize c.host d) fresh1 fresh2 id hB
            (by rw [hroc])
          rw [hroc] at htw
          simp only [loadNodeStat, hd, if_true, hroc, Outcome.ok.injEq] at h1
          subst h1
          simp only [loadNodeStat, hd, if_true, hroc] at hkeep ⊢
          simp only [hkeep, loadNodeStat, hd, if_true, htw]
          exact ⟨_, rfl, rfl⟩
    · have hd2 : st.IsDir = false := by simpa using hd
      have hfs : ∀ fresh, (loadNodeStat c fs d st fresh).1 = fs := by
        intro fresh
        simp only [loadNodeStat, hd2, Bool.false_eq_true, if_false]
        split
        · split <;> rfl
        · rfl
      have hsame : ∀ fresh, loadNodeStat c fs d st fresh = loadNodeStat c fs d st fresh1 := by
        intro fresh
        simp [loadNodeStat, hd2]
      rw [hfs fresh1]
      simp only [hst, hsame fresh2]
      refine ⟨n1, ?_, rfl⟩
      rw [Prod.ext_iff]
      exact ⟨hfs fresh1, h1⟩

/-- C3, amended, on a folder without a sidecar: the first load writes the uuid `u1`, the
second reads it back although the generator now offers `u2`. -/
theorem LoadNode_twice_witness :
    (LoadNode (linuxClient false) bareFolderFs ['a'] "u1").2 =
      .ok { collection ['a'] "u1" with Mode := 511 } ∧
    ∃ n2, LoadNode (linuxClient false) (LoadNode (linuxClient false) bareFolderFs ['a'] "u1").1
        ['a'] "u2" = ((LoadNode (linuxClient false) bareFolderFs ['a'] "u1").1, .ok n2) ∧
      n2.Uuid = ({ collection ['a'] "u1" with Mode := 511 } : Node).Uuid :=
  ⟨by decide, LoadNode_twice (linuxClient false) bareFolderFs ['a'] "u1" "u2" _ rfl (by decide)⟩

/-! ## Creating and deleting a folder -/

theorem setChild_setChild (n : List Char) (a b : Entry) (cs : List (List Char × Entry)) :
    setChild n a (setChild n b cs) = setChild n a cs := by
  induction cs with
  | nil => simp [setChild]
  | cons kv rest ih =>
    obtain ⟨k, v⟩ := kv
    by_cases hk : k = n
    · simp [setChild, hk]
    · simp [setChild, hk, ih]

theorem mkdirAll_addedAt (perm : Nat) (now : Int) (name : List Char) (par : List (List Char))
    (e e1 : Entry) (ch : List (List Char × Entry)) (m : Nat) (t : Int)
    (hpar : e.get par = .ok (.dir ch m t)) (hl : lookupChild name ch = none)
    (h : Entry.mkdirAll perm now e (par ++ [name]) = .ok e1) :
    addedAt e e1 (par ++ [name]) := by
  induction par generalizing e e1 with
  | nil =>
    simp only [Entry.get, Except.ok.injEq] at hpar
    subst hpar
    simp only [List.nil_append, Entry.mkdirAll, hl] at h
    by_cases hw : canWrite m = true
    · simp only [hw, if_true, Except.ok.injEq] at h
      subst h
      rw [setChild_of_lookup_none name _ ch hl]
      exact ⟨rfl, rfl, hl, _, rfl⟩
    · simp [hw] at h
  | cons k rest ih =>
    cases e with
    | file content m0 t0 => simp [Entry.get] at hpar
    | dir cs m0 t0 =>
      simp only [Entry.get] at hpar
      cases hk : lookupChild k cs with
      | none => simp [hk] at hpar
      | some c =>
        simp only [hk] at hpar
        simp only [List.cons_append, Entry.mkdirAll, hk, List.append_eq] at h
        cases hm : Entry.mkdirAll perm now c (rest ++ [name]) with
        | error err => simp [hm] at h
        | ok c2 =>
          simp only [hm, Except.ok.injEq] at h
          subst h
          have hrec := ih c c2 hpar hm
          cases hrest : rest ++ [name] with
          | nil => simp at hrest
          | cons r rs =>
            rw [hrest] at hrec
            simp only [List.cons_append, hrest]
            exact ⟨rfl, rfl, c, c2, hk, rfl, hrec⟩

theorem writeFile_addedAt (data : String) (perm : Nat) (now : Int)
    (path : List (List Char)) (q0 : List Char) (qs : List (List Char)) (e e1 e2 : Entry)
    (hadd : addedAt e e1 path)
    (h : Entry.writeFile data perm now e1 (path ++ q0 :: qs) = .ok e2) :
    addedAt e e2 path := by
  induction path generalizing e e1 e2 with
  | nil => cases e <;> cases e1 <;> simp [addedAt] at hadd
  | cons n rest ih =>
    cases e with
    | file content m t => cases e1 <;> simp [addedAt] at hadd
    | dir cs m t =>
      cases e1 with
      | file content m1 t1 => simp [addedAt] at hadd
      | dir cs1 m1 t1 =>
        cases rest with
        | nil =>
          simp only [addedAt] at hadd
          obtain ⟨hm, ht, hl, x, hx⟩ := hadd
          subst hm ht hx
          simp only [List.cons_append, List.nil_append, Entry.writeFile,
            lookupChild_append_single n x cs hl] at h
          cases hwr : Entry.writeFile data perm now x (q0 :: qs) with
          | error err => simp [hwr] at h
          | ok x2 =>
            simp only [hwr, Except.ok.injEq] at h
            subst h
            rw [← setChild_of_lookup_none n x cs hl, setChild_setChild,
              setChild_of_lookup_none n x2 cs hl]
            exact ⟨rfl, rfl, hl, x2, rfl⟩
        | cons r rs =>
          simp only [addedAt] at hadd
          obtain ⟨hm, ht, c, c2, hl, hcs, hrec⟩ := hadd
          subst hm ht hcs
          simp only [List.cons_append, Entry.writeFile, lookupChild_setChild_same,
            List.append_eq] at h
          cases hwr : Entry.writeFile data perm now c2 (r :: (rs ++ q0 :: qs)) with
          | error err => simp [hwr] at h
          | ok c3 =>
            simp only [hwr, Except.ok.injEq] at h
            subst h
            rw [setChild_setChild]
            exact ⟨rfl, rfl, c, c3, hl, rfl, ih c c2 c3 hrec hwr⟩

theorem removeAll_addedAt (path : List (List Char)) (e e1 e3 : Entry)
    (hadd : addedAt e e1 path) (h : Entry.removeAll e1 path = .ok e3) : e3 = e := by
  induction path generalizing e e1 e3 with
  | nil => cases e <;> cases e1 <;> simp [addedAt] at hadd
  | cons n rest ih =>
    cases e with
    | file content m t => cases e1 <;> simp [addedAt] at hadd
    | dir cs m t =>
      cases e1 with
      | file content m1 t1 => simp [addedAt] at hadd
      | dir cs1 m1 t1 =>
        cases rest with
        | nil =>
          simp only [addedAt] at hadd
          obtain ⟨hm, ht, hl, x, hx⟩ := hadd
          subst hm ht hx
          simp only [Entry.removeAll, lookupChild_append_single n x cs hl] at h
          by_cases hw : canWrite m1 = true
          · simp only [hw, if_true, Except.ok.injEq] at h
            subst h
            rw [eraseChild_append_single n x cs hl]
          · simp [hw] at h
        | cons r rs =>
          simp only [addedAt] at hadd
          obtain ⟨hm, ht, c, c2, hl, hcs, hrec⟩ := hadd
          subst hm ht hcs
          simp only [Entry.removeAll, lookupChild_setChild_same] at h
          cases hrm : Entry.removeAll c2 (r :: rs) with
          | error err => simp [hrm] at h
          | ok c3 =>
            simp only [hrm, Except.ok.injEq] at h
            subst h
            rw [ih c c2 c3 hrec hrm, setChild_setChild_back n c c2 cs hl]

theorem addedAt_get (path : List (List Char)) (e e1 : Entry) (hadd : addedAt e e1 path) :
    ∃ x, e1.get path = .ok x := by
  induction path generalizing e e1 with
  | nil => cases e <;> cases e1 <;> simp [addedAt] at hadd
  | cons n rest ih =>
    cases e with
    | file content m t => cases e1 <;> simp [addedAt] at hadd
    | dir cs m t =>
      cases e1 with
      | file content m1 t1 => simp [addedAt] at hadd
      | dir cs1 m1 t1 =>
        cases rest with
        | nil =>
          simp only [addedAt] at hadd
          obtain ⟨hm, ht, hl, x, hx⟩ := hadd
          subst hx
          exact ⟨x, by simp [Entry.get, lookupChild_append_single n x cs hl]⟩
        | cons r rs =>
          simp only [addedAt] at hadd
          obtain ⟨hm, ht, c, c2, hl, hcs, hrec⟩ := hadd
          subst hcs
          obtain ⟨x, hx⟩ := ih c c2 hrec
          exact ⟨x, by simp [Entry.get, lookupChild_setChild_same, hx]⟩

/-- C9, as stated, fails: `CreateNode` makes the missing parents too (`MkdirAll`) and
`DeleteNode` removes the folder only. On the empty root, creating `a/b` and deleting it
both succeed and leave the folder `a` behind. -/
theorem CreateNode_DeleteNode_leaves_parent :
    (CreateNode (linuxClient false) emptyFs (collection ['a', '/', 'b'] "u1") false).err = none ∧
    (DeleteNode (linuxClient false)
      (CreateNode (linuxClient false) emptyFs (collection ['a', '/', 'b'] "u1") false).fs
      ['a', '/', 'b']).err = none ∧
    (DeleteNode (linuxClient false)
      (CreateNode (linuxClient false) emptyFs (collection ['a', '/', 'b'] "u1") false).fs
      ['a', '/', 'b']).fs.root = .dir [(['a'], .dir [] 511 0)] 511 0 ∧
    (DeleteNode (linuxClient false)
      (CreateNode (linuxClient false) emptyFs (collection ['a', '/', 'b'] "u1") false).fs
      ['a', '/', 'b']).fs.root ≠ emptyFs.root := by
  refine ⟨by decide, by decide, rfl, ?_⟩
  have h : (DeleteNode (linuxClient false)
      (CreateNode (linuxClient false) emptyFs (collection ['a', '/', 'b'] "u1") false).fs
      ['a', '/', 'b']).fs.root = .dir [(['a'], .dir [] 511 0)] 511 0 := rfl
  rw [h]
  simp [emptyFs]

/-- C9, amended: when the path of the node does not exist (stat reports not-found) and
the directory that is to hold it does, then after a successful `CreateNode` and a
successful `DeleteNode` of that path the filesystem is as it was before. -/
theorem CreateNode_then_DeleteNode (c : FSClient) (fs : Fs) (node : Node)
    (updateIfExists : Bool) (par : List (List Char)) (name : List Char)
    (ch : List (List Char × Entry)) (m : Nat) (t : Int)
    (hpath : RealPath c.host.goos (denormalize c.host node.Path) = some (par ++ [name]))
    (hpar : fs.root.get par = .ok (.dir ch m t))
    (hnew : Fs.Stat c.host.goos fs (denormalize c.host node.Path) = .error .notExist)
    (hcreate : (CreateNode c fs node updateIfExists).err = none)
    (hdel : (DeleteNode c (CreateNode c fs node updateIfExists).fs node.Path).err = none) :
    (DeleteNode c (CreateNode c fs node updateIfExists).fs node.Path).fs = fs := by
  have hleaf : node.IsLeaf = false := by
    cases hl : node.IsLeaf with
    | false => rfl
    | true => simp [CreateNode, hl] at hcreate
  have hl : lookupChild name ch = none := by
    simp only [Fs.Stat, hpath, Entry.get_append par [name] fs.root _ hpar, Entry.get] at hnew
    cases hlk : lookupChild name ch with
    | none => rfl
    | some x => simp [hlk] at hnew
  cases hmk : Entry.mkdirAll 511 fs.now fs.root (par ++ [name]) with
  | error err =>
    simp [CreateNode, hleaf, hnew, errOf, IsNotExist, Fs.MkdirAll, hpath, hmk] at hcreate
  | ok r1 =>
    have hadd1 := mkdirAll_addedAt 511 fs.now name par fs.root r1 ch m t hpar hl hmk
    have hside := RealPath_Join c.host.goos (denormalize c.host node.Path)
      PYDIO_SYNC_HIDDEN_FILE_META (par ++ [name]) hpath (plainComp_sidecar c.host.goos)
    have hstate : ∃ r, (CreateNode c fs node updateIfExists).fs = { root := r, now := fs.now } ∧
        addedAt fs.root r (par ++ [name]) := by
      by_cases hw : node.Uuid ≠ "" ∧ c.options.BrowseOnly = false
      · cases hwr : Entry.writeFile node.Uuid 511 fs.now r1
            (par ++ [name] ++ [PYDIO_SYNC_HIDDEN_FILE_META]) with
        | error err =>
          refine ⟨r1, ?_, hadd1⟩
          have hwr2 := hwr
          simp only [List.append_assoc, List.cons_append, List.nil_append] at hwr2
          simp [CreateNode, hleaf, hnew, errOf, IsNotExist, Fs.MkdirAll, hpath, hmk, hw,
            Fs.WriteFile, hside, hwr2]
        | ok r2 =>
          refine ⟨r2, ?_, writeFile_addedAt node.Uuid 511 fs.now (par ++ [name])
            PYDIO_SYNC_HIDDEN_FILE_META [] fs.root r1 r2 hadd1 hwr⟩
          have hwr2 := hwr
          simp only [List.append_assoc, List.cons_append, List.nil_append] at hwr2
          simp [CreateNode, hleaf, hnew, errOf, IsNotExist, Fs.MkdirAll, hpath, hmk, hw,
            Fs.WriteFile, hside, hwr2]
      · refine ⟨r1, ?_, hadd1⟩
        simp only [CreateNode, hleaf, hnew, errOf, IsNotExist, Fs.MkdirAll, hpath, hmk, hw]
        simp
    obtain ⟨r, hfs, hadd⟩ := hstate
    rw [hfs] at hdel ⊢
    obtain ⟨x, hx⟩ := addedAt_get (par ++ [name]) fs.root r hadd
    have hstat : errOf (Fs.Stat c.host.goos { root := r, now := fs.now }
        (denormalize c.host node.Path)) = none := by
      simp [Fs.Stat, hpath, hx, errOf]
    cases hcons : par ++ [name] with
    | nil => simp at hcons
    | cons n rest =>
      rw [hcons] at hadd hpath
      cases hrm : Entry.removeAll r (n :: rest) with
      | error err =>
        simp [DeleteNode, hstat, IsNotExist, Fs.RemoveAll, hpath, hrm] at hdel
      | ok r3 =>
        have hr3 := removeAll_addedAt (n :: rest) fs.root r r3 hadd hrm
        subst hr3
        simp [DeleteNode, hstat, IsNotExist, Fs.RemoveAll, hpath, hrm]

/-- C9, amended, on the empty root: creating the folder `a` and deleting it. -/
theorem CreateNode_then_DeleteNode_witness :
    (DeleteNode (linuxClient false)
      (CreateNode (linuxClient false) emptyFs (collection ['a'] "u1") false).fs
      (collection ['a'] "u1").Path).fs = emptyFs :=
  CreateNode_then_DeleteNode (linuxClient false) emptyFs (collection ['a'] "u1") false
    [] ['a'] [] 511 0 rfl rfl rfl (by decide) (by decide)

/-! ## Snapshot mirror and sidecar errors -/

/-- C4: the code breaks the claim in `CreateNode`. With a snapshot target attached, creating
`ro/x` below a read-only folder fails in `MkdirAll` with a permission error, the filesystem
stays as it was and the error is returned, yet the snapshot target receives the
`CreateNode` call. `DeleteNode` and `MoveNode` test `err == nil` first. -/
theorem CreateNode_snapshot_call_after_failure :
    (CreateNode (linuxClient true) readOnlyFs (collection ['r', 'o', '/', 'x'] "u1") false).err =
      some (.fs .permission) ∧
    (CreateNode (linuxClient true) readOnlyFs (collection ['r', 'o', '/', 'x'] "u1") false).fs.root =
      readOnlyFs.root ∧
    (CreateNode (linuxClient true) readOnlyFs (collection ['r', 'o', '/', 'x'] "u1") false).snapshot =
      [.CreateNode (collection ['r', 'o', '/', 'x'] "u1") false] :=
  ⟨by decide, rfl, by decide⟩

/-- C10: the code breaks the claim. When opening the sidecar fails with an error other
than not-found, `readOrCreateFolderId` takes the else branch and calls `Close` on the nil
file: it panics and returns neither the error nor a uuid. -/
theorem readOrCreateFolderId_open_error_panics (c : FSClient) (fs : Fs) (path : List Char)
    (fresh : String) (err : FsError) (hB : c.options.BrowseOnly = false)
    (hopen : Fs.Open c.host.goos fs (Join c.host.goos path PYDIO_SYNC_HIDDEN_FILE_META) =
      .error err)
    (hne : err ≠ .notExist) :
    readOrCreateFolderId c fs path fresh = (fs, .panic) := by
  have h2 : IsNotExist (some err) = false := by
    cases err <;> simp [IsNotExist] at hne ⊢
  simp [readOrCreateFolderId, hB, hopen, h2]

/-- C10 on a folder `a` whose sidecar is unreadable (mode 0): opening it fails with a
permission error and the call panics. -/
theorem readOrCreateFolderId_open_error_panics_witness :
    readOrCreateFolderId (linuxClient false) lockedSidecarFs ['a'] "fresh" =
      (lockedSidecarFs, .panic) :=
  readOrCreateFolderId_open_error_panics (linuxClient false) lockedSidecarFs ['a'] "fresh"
    .permission rfl rfl (by decide)

/-! ## Retry helpers -/

theorem retryLoop_ticks {ε : Type} (f : Nat → Option ε) (n calls : Nat) (lastErr : Option ε)
    (s : List RetrySignal) (h : ∀ j < n, f (calls + j) ≠ none) :
    retryLoop f calls lastErr (List.replicate n .tick ++ s) =
      retryLoop f (calls + n) (if n = 0 then lastErr else f (calls + n - 1)) s := by
  induction n generalizing calls lastErr with
  | zero => simp
  | succ n ih =>
    have h0 := h 0 (Nat.succ_pos n)
    cases hf : f calls with
    | none => simp [hf] at h0
    | some e =>
      have hrest : ∀ j < n, f (calls + 1 + j) ≠ none := by
        intro j hj
        have := h (j + 1) (Nat.succ_lt_succ hj)
        rwa [show calls + 1 + j = calls + (j + 1) by omega]
      simp only [List.replicate_succ, List.cons_append, retryLoop, hf, List.append_eq]
      rw [ih (calls + 1) (some e) hrest]
      have hc : calls + 1 + n = calls + (n + 1) := by omega
      rw [hc]
      by_cases hn : n = 0
      · subst hn
        simp [hf]
      · have hidx : calls + (n + 1) - 1 = calls + n := by omega
        simp [hn, hidx]

/-- C5, as stated, fails: the error of the immediate first invocation is not kept. When
the timeout fires before any tick, `Retry` returns the generic timeout error although the
invocation has returned an error. -/
theorem Retry_first_error_not_kept :
    alwaysFails 0 = some 0 ∧
    Retry alwaysFails [.timeout] = .returned (some .timeout) ∧
    Retry alwaysFails [.timeout] ≠ .returned (some (.last 0)) := by
  decide

/-- C5, amended: let the invocations before the `n`-th fail (the `n`-th is made at the
`n`-th tick, the first is number 0). If the `n`-th returns nil, `Retry` returns nil then,
whatever fires later. If it fails too and the timeout fires next, `Retry` returns the error
of that most recent invocation when it was made at a tick, and the generic timeout error
when no tick has fired, i.e. when only the immediate first invocation has run. -/
theorem Retry_result {ε : Type} (f : Nat → Option ε) (n : Nat) (rest : List RetrySignal)
    (hfail : ∀ j < n, f j ≠ none) :
    (f n = none → Retry f (List.replicate n .tick ++ rest) = .returned none) ∧
    (f n ≠ none → Retry f (List.replicate n .tick ++ .timeout :: rest) =
      .returned (if n = 0 then some .timeout else (f n).map RetryError.last)) := by
  cases n with
  | zero =>
    constructor
    · intro h0
      simp [Retry, h0]
    · intro h0
      cases hf : f 0 with
      | none => exact absurd hf h0
      | some e => simp [Retry, hf, retryLoop]
  | succ k =>
    have h0 := hfail 0 (Nat.succ_pos k)
    cases hf0 : f 0 with
    | none => exact absurd hf0 h0
    | some e0 =>
      constructor
      · intro hnil
        have hticks : ∀ j < k, f (1 + j) ≠ none := fun j hj => hfail (1 + j) (by omega)
        have hk : f (1 + k) = none := by rwa [Nat.add_comm]
        simp only [Retry, hf0, List.replicate_succ', List.append_assoc, List.singleton_append]
        rw [retryLoop_ticks f k 1 none _ hticks]
        simp [retryLoop, hk]
      · intro hne
        have hticks : ∀ j < k + 1, f (1 + j) ≠ none := by
          intro j hj
          by_cases hjk : j < k
          · exact hfail (1 + j) (by omega)
          · have : 1 + j = k + 1 := by omega
            rwa [this]
        simp only [Retry, hf0]
        rw [retryLoop_ticks f (k + 1) 1 none _ hticks]
        have hidx : 1 + (k + 1) - 1 = k + 1 := by omega
        cases hfk : f (k + 1) with
        | none => exact absurd hfk hne
        | some e => simp [retryLoop, hidx, hfk]

/-- C5, amended, on a function that fails three times: nil at the third tick; and on one
that always fails: the error of the second tick when the timeout fires after two ticks. -/
theorem Retry_result_witness :
    Retry failsThrice [.tick, .tick, .tick, .timeout] = .returned none ∧
    Retry alwaysFails [.tick, .tick, .timeout] = .returned (some (.last 2)) :=
  ⟨(Retry_result failsThrice 3 [.timeout] (by decide)).1 (by decide),
   (Retry_result alwaysFails 2 [] (by decide)).2 (by decide)⟩

theorem retryWithCtxLoop_attempts {ε : Type} (f : Nat → Nat → Option ε) (n calls i : Nat)
    (lastErr : Option ε) (log : List Nat) (rest : List CtxSignal)
    (hfail : ∀ k j, f k j ≠ none) :
    (retryWithCtxLoop f calls i lastErr log (List.replicate n .tick ++ .timeout :: rest)).2 =
      log.reverse ++ List.range' i n := by
  induction n generalizing calls i lastErr log with
  | zero =>
    cases lastErr <;> simp [retryWithCtxLoop]
  | succ n ih =>
    cases hf : f calls i with
    | none => exact absurd hf (hfail calls i)
    | some e =>
      simp only [List.replicate_succ, List.cons_append, retryWithCtxLoop, hf, List.append_eq]
      rw [ih (calls + 1) (i + 1) (some e) (i :: log)]
      simp [List.range'_succ]

/-- C6: the code breaks the claim. `RetryWithCtx` passes `i` at a tick and increments it
afterwards, so the first invocation at a tick gets the 0 the immediate invocation has
got: while the function fails, the invocations receive 0, 0, 1, 2, ... and invocation
`k ≥ 1` receives `k - 1`. -/
theorem RetryWithCtx_attempts {ε : Type} (f : Nat → Nat → Option ε) (n : Nat)
    (rest : List CtxSignal) (hfail : ∀ k j, f k j ≠ none) :
    (RetryWithCtx f (List.replicate n .tick ++ .timeout :: rest)).2 = 0 :: List.range n := by
  cases hf : f 0 0 with
  | none => exact absurd hf (hfail 0 0)
  | some e =>
    simp only [RetryWithCtx, hf]
    rw [retryWithCtxLoop_attempts f n 1 0 none [0] rest hfail]
    simp [List.range_eq_range']

/-- C6 on a function that always fails, with two ticks before the timeout: the three
invocations receive 0, 0 and 1. -/
theorem RetryWithCtx_attempts_witness :
    (RetryWithCtx alwaysFailsCtx [.tick, .tick, .timeout]).2 = [0, 0, 1] :=
  RetryWithCtx_attempts alwaysFailsCtx 2 [] (fun _ _ => by simp [alwaysFailsCtx])

/-! ## Duplicate folder report -/

/-- C7: the code breaks the claim. The slice of a uuid is made with length 1 (a nil entry)
before the first node is appended, and the slice in `data` is not updated when a duplicate
is found: for two folders with uuid `u` the value is nil, first, second; for three it is
nil, first, third, the second folder is lost. -/
theorem ExistingFolders_nil_entry_and_lost_node :
    existingFoldersOf
      [⟨['a'], some (collection ['a'] "u"), none⟩, ⟨['b'], some (collection ['b'] "u"), none⟩] =
      [("u", [none, some (collection ['a'] "u"), some (collection ['b'] "u")])] ∧
    existingFoldersOf
      [⟨['a'], some (collection ['a'] "u"), none⟩, ⟨['b'], some (collection ['b'] "u"), none⟩,
       ⟨['c'], some (collection ['c'] "u"), none⟩] =
      [("u", [none, some (collection ['a'] "u"), some (collection ['c'] "u")])] := by
  decide

/-! ## Walker -/

/-- C8: the code breaks the claim. `Walk` drops the root and the names with the temporary
write prefix, and nothing else: it never consults the ignored-files predicate, which only
`Watch` applies. On a root holding `.DS_Store` the visitor receives that entry, in a
recursive walk and in a walk of one level, while `.tmp.write.b` is dropped. -/
theorem Walk_visits_ignored_file :
    (Walk (linuxClient false) dsStoreFs sampleUuid ['/'] true).state.visits.map Visit.path =
      [".DS_Store".toList, ['a'], "a/.pydio".toList] ∧
    (Walk (linuxClient false) dsStoreFs sampleUuid ['/'] false).state.visits.map Visit.path =
      [".DS_Store".toList, ['a']] ∧
    (Walk (linuxClient false) dsStoreFs sampleUuid ['/'] true).state.visits.head? =
      some { path := ".DS_Store".toList,
             node := some { Path := ".DS_Store".toList, Type_ := .LEAF, Uuid := "", Etag := "x",
                            MTime := 0, Size := 1, Mode := 420 },
             err := none } ∧
    IsIgnoredFile (Base .other ".DS_Store".toList) = true := by
  decide

/-! ## Recursive move -/

/-- Reading a list from its last index down gives the list reversed. -/
theorem map_range_getD_reverse (ws : List (List Char)) :
    (List.range ws.length).map (fun k => ws.getD (ws.length - 1 - k) []) = ws.reverse := by
  apply List.ext_getElem
  · simp
  · intro i h1 h2
    have hi : i < ws.length := by simpa using h1
    have hidx : ws.length - 1 - i < ws.length := by omega
    simp [List.getElem?_eq_getElem hidx]

/-- The renames asked for when the walk has collected `oldPath` and then the paths `ws`,
none of them empty. -/
theorem moveRecursivelyRenames_cons (oldPath newPath : List Char) (ws : List (List Char))
    (hne : ∀ w ∈ ws, w ≠ []) :
    moveRecursivelyRenames (oldPath :: ws) oldPath newPath =
      ws.reverse.map (fun w => (w, newPath ++ TrimPrefix w oldPath)) ++
        [(oldPath, newPath)] := by
  have hlast : (oldPath :: ws).getD (ws.length + 1) [] = [] :=
    List.getD_eq_default _ _ (by simp)
  have hstep : ∀ k ∈ List.range ws.length,
      ((fun key =>
        if ((oldPath :: ws).getD (ws.length + 1 - key) []).length = 0 then none
        else some ((oldPath :: ws).getD (ws.length + 1 - key) [],
          newPath ++ TrimPrefix ((oldPath :: ws).getD (ws.length + 1 - key) []) oldPath)) ∘
        Nat.succ) k =
      some ((fun w => (w, newPath ++ TrimPrefix w oldPath))
        ((fun k => ws.getD (ws.length - 1 - k) []) k)) := by
    intro k hk
    have hk2 : k < ws.length := List.mem_range.mp hk
    have hidx : ws.length + 1 - (k + 1) = (ws.length - 1 - k) + 1 := by omega
    have hlt : ws.length - 1 - k < ws.length := by omega
    have hmem : ws.getD (ws.length - 1 - k) [] ∈ ws := by
      rw [List.getD_eq_getElem _ _ hlt]
      exact List.getElem_mem hlt
    have hlen : (ws.getD (ws.length - 1 - k) []).length ≠ 0 := by
      intro h0
      exact hne _ hmem (List.length_eq_zero.mp h0)
    simp only [Function.comp, Nat.succ_eq_add_one, hidx, List.getD_cons_succ, hlen, if_false]
  simp only [moveRecursivelyRenames, List.length_cons, List.range_succ_eq_map,
    List.filterMap_cons, Nat.sub_zero, hlast, List.length_nil, if_true, List.filterMap_map]
  rw [List.filterMap_eq_map_iff_forall_eq_some.mpr hstep]
  conv_rhs => rw [← map_range_getD_reverse ws, List.map_map]
  rfl

theorem Clean_ne_nil (goos : Goos) (x : List Char) : Clean goos x ≠ [] := by
  cases x with
  | nil => simp [Clean]
  | cons c cs =>
    simp only [Clean]
    by_cases hr : IsPathSeparator goos c = true
    · simp [hr]
    · have hr2 : IsPathSeparator goos c = false := by simpa using hr
      simp only [hr2, Bool.false_eq_true, if_false]
      by_cases hb : joinComponents (PathSeparator goos)
          (cleanStack false (splitPath goos (c :: cs)) []).reverse = []
      · simp [hb]
      · simp [hb]

theorem Join_ne_nil (goos : Goos) (a b : List Char) (ha : a ≠ []) : Join goos a b ≠ [] := by
  unfold Join
  simp only [ha, if_false]
  split <;> exact Clean_ne_nil goos _

/-- A fold whose steps only append non-empty paths only appends non-empty paths. -/
theorem foldl_collect {α : Type} (step : Fs × List (List Char) → α → Fs × List (List Char))
    (l : List α)
    (hstep : ∀ st, ∀ a ∈ l, ∃ ws, step st a = (st.1, st.2 ++ ws) ∧ ∀ w ∈ ws, w ≠ [])
    (st : Fs × List (List Char)) :
    ∃ ws, l.foldl step st = (st.1, st.2 ++ ws) ∧ ∀ w ∈ ws, w ≠ [] := by
  induction l generalizing st with
  | nil => exact ⟨[], by simp, by simp⟩
  | cons a rest ih =>
    obtain ⟨ws1, h1, hne1⟩ := hstep st a (by simp)
    obtain ⟨ws2, h2, hne2⟩ := ih (fun st b hb => hstep st b (by simp [hb])) (step st a)
    refine ⟨ws1 ++ ws2, ?_, ?_⟩
    · rw [List.foldl_cons, h2, h1]
      simp
    · intro w hw
      rcases List.mem_append.mp hw with h | h
      · exact hne1 w h
      · exact hne2 w h

/-- The walk of a non-empty path with the collecting visitor leaves the filesystem alone
and appends non-empty paths, the path walked first. -/
theorem aferoWalkAux_collect (goos : Goos) (fuel : Nat) (s : Fs × List (List Char))
    (path : List Char) (info : FileInfo) (hp : path ≠ []) :
    ∃ ws, aferoWalkAux goos Prod.fst (fun s wPath _ _ => (s.1, s.2 ++ [wPath])) fuel s path info =
        (s.1, s.2 ++ ws) ∧ (∀ w ∈ ws, w ≠ []) ∧ (0 < fuel → ∃ ws2, ws = path :: ws2) := by
  induction fuel generalizing s path info with
  | zero => exact ⟨[], by simp [aferoWalkAux], by simp, by simp⟩
  | succ fuel ih =>
    rw [aferoWalkAux]
    by_cases hd : info.IsDir = false
    · exact ⟨[path], by simp [hd], by simpa using hp, fun _ => ⟨[], rfl⟩⟩
    · simp only [hd, if_false]
      cases hrd : Fs.readDirNames goos s.1 path with
      | error err => exact ⟨[path, path], by simp, by simp [hp], fun _ => ⟨[path], rfl⟩⟩
      | ok names =>
        simp only
        obtain ⟨ws, hws, hne⟩ := foldl_collect
          (fun st name =>
            let filename := Join goos path name
            match Fs.Stat goos st.1 filename with
            | .error _ => (st.1, st.2 ++ [filename])
            | .ok fi =>
              aferoWalkAux goos Prod.fst (fun s wPath _ _ => (s.1, s.2 ++ [wPath])) fuel st
                filename fi)
          names
          (by
            intro st name _
            simp only
            cases hst : Fs.Stat goos st.1 (Join goos path name) with
            | error err => exact ⟨[Join goos path name], rfl, by simp [Join_ne_nil goos path name hp]⟩
            | ok fi =>
              obtain ⟨ws, h, hne, _⟩ := ih st (Join goos path name) fi (Join_ne_nil goos path name hp)
              exact ⟨ws, h, hne⟩)
          (s.1, s.2 ++ [path])
        refine ⟨path :: ws, ?_, ?_, fun _ => ⟨ws, rfl⟩⟩
        · rw [hws]
          simp
        · intro w hw
          rcases List.mem_cons.mp hw with e | e
          · rw [e]
            exact hp
          · exact hne w e

/-- The walk of `moveRecursively` collects `oldPath` first and after it non-empty paths
only. -/
theorem collectedMoves_shape (c : FSClient) (fs : Fs) (oldPath : List Char)
    (hold : oldPath ≠ []) :
    ∃ ws, collectedMoves c fs oldPath = oldPath :: ws ∧ ∀ w ∈ ws, w ≠ [] := by
  unfold collectedMoves aferoWalk
  cases hst : Fs.Stat c.host.goos fs oldPath with
  | error err => exact ⟨[], by simp [hst], by simp⟩
  | ok info =>
    obtain ⟨ws, hws, hne, hhead⟩ := aferoWalkAux_collect c.host.goos (fs.root.height + 1)
      (fs, []) oldPath info hold
    obtain ⟨ws2, hws2⟩ := hhead (Nat.succ_pos _)
    subst hws2
    refine ⟨ws2, ?_, fun w hw => hne w (by simp [hw])⟩
    simp only [hst, hws]
    simp

/-- A fold whose steps leave the filesystem alone and only append paths does so too. -/
theorem foldl_appends {α : Type} (step : Fs × List (List Char) → α → Fs × List (List Char))
    (l : List α) (hstep : ∀ st, ∀ a ∈ l, ∃ ws, step st a = (st.1, st.2 ++ ws))
    (st : Fs × List (List Char)) :
    ∃ ws, l.foldl step st = (st.1, st.2 ++ ws) := by
  induction l generalizing st with
  | nil => exact ⟨[], by simp⟩
  | cons a rest ih =>
    obtain ⟨ws1, h1⟩ := hstep st a (by simp)
    obtain ⟨ws2, h2⟩ := ih (fun st b hb => hstep st b (by simp [hb])) (step st a)
    refine ⟨ws1 ++ ws2, ?_⟩
    rw [List.foldl_cons, h2, h1]
    simp

/-- The walk of any path with the collecting visitor leaves the filesystem alone and
appends paths, the path walked first. -/
theorem aferoWalkAux_appends (goos : Goos) (fuel : Nat) (s : Fs × List (List Char))
    (path : List Char) (info : FileInfo) :
    ∃ ws, aferoWalkAux goos Prod.fst (fun s wPath _ _ => (s.1, s.2 ++ [wPath])) fuel s path info =
        (s.1, s.2 ++ ws) ∧ (0 < fuel → ∃ ws2, ws = path :: ws2) := by
  induction fuel generalizing s path info with
  | zero => exact ⟨[], by simp [aferoWalkAux], by simp⟩
  | succ fuel ih =>
    rw [aferoWalkAux]
    by_cases hd : info.IsDir = false
    · exact ⟨[path], by simp [hd], fun _ => ⟨[], rfl⟩⟩
    · simp only [hd, if_false]
      cases hrd : Fs.readDirNames goos s.1 path with
      | error err => exact ⟨[path, path], by simp, fun _ => ⟨[path], rfl⟩⟩
      | ok names =>
        simp only
        obtain ⟨ws, hws⟩ := foldl_appends
          (fun st name =>
            let filename := Join goos path name
            match Fs.Stat goos st.1 filename with
            | .error _ => (st.1, st.2 ++ [filename])
            | .ok fi =>
              aferoWalkAux goos Prod.fst (fun s wPath _ _ => (s.1, s.2 ++ [wPath])) fuel st
                filename fi)
          names
          (by
            intro st name _
            simp only
            cases hst : Fs.Stat goos st.1 (Join goos path name) with
            | error err => exact ⟨[Join goos path name], rfl⟩
            | ok fi =>
              obtain ⟨ws, h, _⟩ := ih st (Join goos path name) fi
              exact ⟨ws, h⟩)
          (s.1, s.2 ++ [path])
        refine ⟨path :: ws, ?_, fun _ => ⟨ws, rfl⟩⟩
        rw [hws]
        simp

/-- The walk of `moveRecursively` collects `oldPath` first, whatever the state. -/
theorem collectedMoves_head (c : FSClient) (fs : Fs) (oldPath : List Char) :
    ∃ ws, collectedMoves c fs oldPath = oldPath :: ws := by
  unfold collectedMoves aferoWalk
  cases hst : Fs.Stat c.host.goos fs oldPath with
  | error err => exact ⟨[], by simp [hst]⟩
  | ok info =>
    obtain ⟨ws, hws, hhead⟩ := aferoWalkAux_appends c.host.goos (fs.root.height + 1)
      (fs, []) oldPath info
    obtain ⟨ws2, hws2⟩ := hhead (Nat.succ_pos _)
    subst hws2
    refine ⟨ws2, ?_⟩
    simp only [hst, hws]
    simp

/-- C11: let the paths that the walk of `oldPath` inside `moveRecursively` collects after
the first be non-empty, as the joined names of a walk are. Then the walk has collected
`oldPath` first and after it the paths `ws`, and `moveRecursively` is the run of these
calls of `Fs.Rename` on the filesystem, errors dropped: one rename per path of `ws`, from
the last collected to the first, so an entry comes before the directory that holds it,
each to `newPath` followed by the path without the prefix `oldPath`, and then the rename
of `oldPath` to `newPath`. Of the indices `total - key` only `total` has no path, and
index 0 is `oldPath`, renamed last. -/
theorem moveRecursively_rename_order (c : FSClient) (fs : Fs) (oldPath newPath : List Char)
    (hne : ∀ w ∈ (collectedMoves c fs oldPath).tail, w ≠ []) :
    ∃ ws, collectedMoves c fs oldPath = oldPath :: ws ∧
      moveRecursivelyRenames (collectedMoves c fs oldPath) oldPath newPath =
        ws.reverse.map (fun w => (w, newPath ++ TrimPrefix w oldPath)) ++
          [(oldPath, newPath)] ∧
      moveRecursively c fs oldPath newPath =
        (ws.reverse.map (fun w => (w, newPath ++ TrimPrefix w oldPath)) ++
          [(oldPath, newPath)]).foldl (fun f r => (Fs.Rename c.host.goos f r.1 r.2).1) fs := by
  obtain ⟨ws, hws⟩ := collectedMoves_head c fs oldPath
  have hne2 : ∀ w ∈ ws, w ≠ [] := by
    intro w hw
    exact hne w (by rw [hws]; exact hw)
  have hren := moveRecursivelyRenames_cons oldPath newPath ws hne2
  have hdef : moveRecursively c fs oldPath newPath =
      (moveRecursivelyRenames (collectedMoves c fs oldPath) oldPath newPath).foldl
        (fun f r => (Fs.Rename c.host.goos f r.1 r.2).1) fs := rfl
  refine ⟨ws, hws, ?_, ?_⟩
  · rw [hws, hren]
  · rw [hdef, hws, hren]

/-- C11 on the folder `a` holding `b/d` and `c`, moved onto the empty folder `z`: the walk
collects `a`, `a/b`, `a/b/d`, `a/c`; the renames run are those of `a/c`, `a/b/d`, `a/b`
and `a`, and they leave `c` and `b` with its file `d` below `z`. -/
theorem moveRecursively_rename_order_witness :
    collectedMoves (linuxClient false) moveTargetFs ['a'] =
      [['a'], "a/b".toList, "a/b/d".toList, "a/c".toList] ∧
    moveRecursivelyRenames (collectedMoves (linuxClient false) moveTargetFs ['a']) ['a'] ['z'] =
      [("a/c".toList, "z/c".toList), ("a/b/d".toList, "z/b/d".toList),
       ("a/b".toList, "z/b".toList), (['a'], ['z'])] ∧
    (moveRecursively (linuxClient false) moveTargetFs ['a'] ['z']).root =
      .dir [(['a'], .dir [] 511 0),
            (['z'], .dir [(['c'], .file "y" 420 0),
                          (['b'], .dir [(['d'], .file "x" 420 0)] 511 0)] 511 0)] 511 0 ∧
    ∃ ws, collectedMoves (linuxClient false) moveTargetFs ['a'] = ['a'] :: ws ∧
      moveRecursivelyRenames (collectedMoves (linuxClient false) moveTargetFs ['a']) ['a'] ['z'] =
        ws.reverse.map (fun w => (w, ['z'] ++ TrimPrefix w ['a'])) ++ [(['a'], ['z'])] ∧
      moveRecursively (linuxClient false) moveTargetFs ['a'] ['z'] =
        (ws.reverse.map (fun w => (w, ['z'] ++ TrimPrefix w ['a'])) ++
          [(['a'], ['z'])]).foldl
          (fun f r => (Fs.Rename (linuxClient false).host.goos f r.1 r.2).1) moveTargetFs :=
  ⟨by decide, by decide, rfl,
   moveRecursively_rename_order (linuxClient false) moveTargetFs ['a'] ['z'] (by decide)⟩

end Cells
